import Mathlib

/-!
# Verification of the mongo-repair-utf8 rewriting engine

A shallow embedding of `src/main.rs` of the `mongo-repair-utf8` repository.
Bytes are modelled as `Nat` values (the source works on `u8`; where a source
cast matters we write the `% 256` reduction explicitly).  Strings are modelled
as the lists of their UTF-8 bytes, Rust `String` values as lists of their
Unicode scalar values.  Fallible operations return `Except`.

The document model follows the binary document format the program consumes
(a BSON buffer: 4-byte little-endian total length, a sequence of
`[tag][cstring key][value]` elements, and a trailing zero byte).  The helpers
of the `bson` crate used by `main.rs` (`RawDocument::get_document`,
`get_array`, element iteration, `RawElement::len`) are not part of the
repository; they are modelled here after the documented binary format: the
element iterator reports for each element its key, its tag and the byte
length of its *value* (for a string: 4 bytes of length prefix plus the
declared length), scanning elements in order and decoding each scanned
element's value, and `get_*(key)` returns the value of the *first* element
whose key matches.
-/

set_option maxRecDepth 4000

namespace MRepair

/-- Error kinds surfaced by the raw-document layer of the program
(`bson::raw::Error` kinds as they matter to `main.rs`):
invalid UTF-8 in a string payload or key, a key lookup miss,
a lookup hitting a value of an unexpected type, and structural
corruption of the buffer (declared lengths not matching the buffer). -/
inductive RErr where
  | utf8Encoding
  | notPresent
  | unexpectedType
  | structural
  | badTag
  | outOfFuel
deriving DecidableEq, Repr

/-- The interactive reviewer (`dialoguer::Confirm` in `fix_string`): given the
key, the lossily decoded old text and the candidate new text, answer yes/no.
Quantifying over all `Decider`s quantifies over all user behaviours. -/
def Decider : Type := List Nat → List Nat → List Nat → Bool

/-- The decider that accepts every prompt (what `confirm = false` amounts to,
and one possible interactive user). -/
def decTrue : Decider := fun _ _ _ => true

/-- The decider that declines every prompt. -/
def decFalse : Decider := fun _ _ _ => false

/-- Unicode scalar values: code points outside the surrogate range. -/
def Scalar (c : Nat) : Prop := c < 0xD800 ∨ (0xE000 ≤ c ∧ c < 0x110000)

instance (c : Nat) : Decidable (Scalar c) := by unfold Scalar; infer_instance

/-- UTF-8 encoding of one scalar value (`char` → bytes in Rust). -/
def utf8EncodeChar (c : Nat) : List Nat :=
  if c < 0x80 then [c]
  else if c < 0x800 then [0xC0 + c / 64, 0x80 + c % 64]
  else if c < 0x10000 then [0xE0 + c / 4096, 0x80 + c / 64 % 64, 0x80 + c % 64]
  else [0xF0 + c / 262144, 0x80 + c / 4096 % 64, 0x80 + c / 64 % 64, 0x80 + c % 64]

/-- UTF-8 encoding of a sequence of scalar values (`String::as_bytes`). -/
def utf8Encode : List Nat → List Nat
  | [] => []
  | c :: cs => utf8EncodeChar c ++ utf8Encode cs

/-- Strict UTF-8 decoding (`str::from_utf8`): `none` on any ill-formed input.
The per-character checks are those of Rust's validator: lead bytes `0xC2-0xDF`,
`0xE0-0xEF`, `0xF0-0xF4`, continuation bytes `0x80-0xBF`, with the narrowed
second-byte ranges that exclude overlong forms, surrogates and values above
`0x10FFFF`. -/
def utf8Decode : List Nat → Option (List Nat)
  | [] => some []
  | b0 :: r0 =>
    if b0 < 0x80 then (utf8Decode r0).map fun cs => b0 :: cs
    else if b0 < 0xC2 then none
    else if b0 < 0xE0 then
      match r0 with
      | b1 :: r1 =>
        if 0x80 ≤ b1 ∧ b1 < 0xC0 then
          (utf8Decode r1).map fun cs => ((b0 - 0xC0) * 64 + (b1 - 0x80)) :: cs
        else none
      | [] => none
    else if b0 < 0xF0 then
      match r0 with
      | b1 :: r1 =>
        if 0x80 ≤ b1 ∧ b1 < 0xC0 ∧ (b0 = 0xE0 → 0xA0 ≤ b1) ∧ (b0 = 0xED → b1 < 0xA0) then
          match r1 with
          | b2 :: r2 =>
            if 0x80 ≤ b2 ∧ b2 < 0xC0 then
              (utf8Decode r2).map fun cs =>
                ((b0 - 0xE0) * 4096 + (b1 - 0x80) * 64 + (b2 - 0x80)) :: cs
            else none
          | [] => none
        else none
      | [] => none
    else if b0 < 0xF5 then
      match r0 with
      | b1 :: r1 =>
        if 0x80 ≤ b1 ∧ b1 < 0xC0 ∧ (b0 = 0xF0 → 0x90 ≤ b1) ∧ (b0 = 0xF4 → b1 < 0x90) then
          match r1 with
          | b2 :: r2 =>
            if 0x80 ≤ b2 ∧ b2 < 0xC0 then
              match r2 with
              | b3 :: r3 =>
                if 0x80 ≤ b3 ∧ b3 < 0xC0 then
                  (utf8Decode r3).map fun cs =>
                    ((b0 - 0xF0) * 262144 + (b1 - 0x80) * 4096 + (b2 - 0x80) * 64 + (b3 - 0x80)) :: cs
                else none
              | [] => none
            else none
          | [] => none
        else none
      | [] => none
    else none

/-- Whether a byte sequence is well-formed UTF-8 (what the `bson` crate's
string accessor checks before surfacing a `&str`). -/
def validUtf8 (bs : List Nat) : Bool := (utf8Decode bs).isSome

/-- Lossy UTF-8 decoding (`String::from_utf8_lossy`): each maximal ill-formed
subpart is replaced by one `U+FFFD`.  On a failure the number of skipped bytes
follows Rust's `Utf8Error::error_len`: the invalid lead byte alone, or the
lead byte together with the continuation bytes that were acceptable. -/
def utf8Lossy : List Nat → List Nat
  | [] => []
  | b0 :: r0 =>
    if b0 < 0x80 then b0 :: utf8Lossy r0
    else if b0 < 0xC2 then 0xFFFD :: utf8Lossy r0
    else if b0 < 0xE0 then
      match r0 with
      | b1 :: r1 =>
        if 0x80 ≤ b1 ∧ b1 < 0xC0 then ((b0 - 0xC0) * 64 + (b1 - 0x80)) :: utf8Lossy r1
        else 0xFFFD :: utf8Lossy (b1 :: r1)
      | [] => [0xFFFD]
    else if b0 < 0xF0 then
      match r0 with
      | b1 :: r1 =>
        if 0x80 ≤ b1 ∧ b1 < 0xC0 ∧ (b0 = 0xE0 → 0xA0 ≤ b1) ∧ (b0 = 0xED → b1 < 0xA0) then
          match r1 with
          | b2 :: r2 =>
            if 0x80 ≤ b2 ∧ b2 < 0xC0 then
              ((b0 - 0xE0) * 4096 + (b1 - 0x80) * 64 + (b2 - 0x80)) :: utf8Lossy r2
            else 0xFFFD :: utf8Lossy (b2 :: r2)
          | [] => [0xFFFD]
        else 0xFFFD :: utf8Lossy (b1 :: r1)
      | [] => [0xFFFD]
    else if b0 < 0xF5 then
      match r0 with
      | b1 :: r1 =>
        if 0x80 ≤ b1 ∧ b1 < 0xC0 ∧ (b0 = 0xF0 → 0x90 ≤ b1) ∧ (b0 = 0xF4 → b1 < 0x90) then
          match r1 with
          | b2 :: r2 =>
            if 0x80 ≤ b2 ∧ b2 < 0xC0 then
              match r2 with
              | b3 :: r3 =>
                if 0x80 ≤ b3 ∧ b3 < 0xC0 then
                  ((b0 - 0xF0) * 262144 + (b1 - 0x80) * 4096 + (b2 - 0x80) * 64 + (b3 - 0x80))
                    :: utf8Lossy r3
                else 0xFFFD :: utf8Lossy (b3 :: r3)
              | [] => [0xFFFD]
            else 0xFFFD :: utf8Lossy (b2 :: r2)
          | [] => [0xFFFD]
        else 0xFFFD :: utf8Lossy (b1 :: r1)
      | [] => [0xFFFD]
    else 0xFFFD :: utf8Lossy r0

/-- Lossy UTF-16 decoding (`String::from_utf16_lossy` /
`char::decode_utf16`): a high surrogate followed by a low surrogate combines,
any unpaired surrogate becomes `U+FFFD`, everything else is kept. -/
def utf16Lossy : List Nat → List Nat
  | [] => []
  | u :: rest =>
    if u < 0xD800 ∨ 0xDFFF < u then u :: utf16Lossy rest
    else if u ≤ 0xDBFF then
      match rest with
      | u2 :: rest2 =>
        if 0xDC00 ≤ u2 ∧ u2 ≤ 0xDFFF then
          (0x10000 + (u - 0xD800) * 1024 + (u2 - 0xDC00)) :: utf16Lossy rest2
        else 0xFFFD :: utf16Lossy (u2 :: rest2)
      | [] => [0xFFFD]
    else 0xFFFD :: utf16Lossy rest

/-- The repair heuristic of `fix_string` (src/main.rs lines 62-63): treat each
raw byte as a 16-bit code unit whose high half was lost (`*v as u16` — the
`% 256` spells out that the cast reads one `u8`), and decode the resulting
unit sequence lossily.  Result: the scalar values of `value_utf16`. -/
def repairPoints (bs : List Nat) : List Nat :=
  utf16Lossy (bs.map (fun b => b % 256))

theorem encodeChar_one {c : Nat} (h : c < 0x80) : utf8EncodeChar c = [c] := by
  unfold utf8EncodeChar; rw [if_pos h]

theorem encodeChar_two {c : Nat} (h : 0x80 ≤ c) (h' : c < 0x800) :
    utf8EncodeChar c = [0xC0 + c / 64, 0x80 + c % 64] := by
  unfold utf8EncodeChar; rw [if_neg (by omega), if_pos h']

theorem encodeChar_three {c : Nat} (h : 0x800 ≤ c) (h' : c < 0x10000) :
    utf8EncodeChar c = [0xE0 + c / 4096, 0x80 + c / 64 % 64, 0x80 + c % 64] := by
  unfold utf8EncodeChar; rw [if_neg (by omega), if_neg (by omega), if_pos h']

theorem encodeChar_four {c : Nat} (h : 0x10000 ≤ c) :
    utf8EncodeChar c =
      [0xF0 + c / 262144, 0x80 + c / 4096 % 64, 0x80 + c / 64 % 64, 0x80 + c % 64] := by
  unfold utf8EncodeChar; rw [if_neg (by omega), if_neg (by omega), if_neg (by omega)]

/-- Facts about the scalar value assembled from a well-checked 3-byte
sequence: its range (no overlongs, no surrogates) and its base-64 digits. -/
theorem cp3_facts {b0 b1 b2 : Nat} (h0 : 0xE0 ≤ b0) (h0' : b0 < 0xF0)
    (h1 : 0x80 ≤ b1) (h1' : b1 < 0xC0) (hE0 : b0 = 0xE0 → 0xA0 ≤ b1)
    (hED : b0 = 0xED → b1 < 0xA0) (h2 : 0x80 ≤ b2) (h2' : b2 < 0xC0) :
    0x800 ≤ (b0 - 0xE0) * 4096 + (b1 - 0x80) * 64 + (b2 - 0x80) ∧
    (b0 - 0xE0) * 4096 + (b1 - 0x80) * 64 + (b2 - 0x80) < 0x10000 ∧
    ((b0 - 0xE0) * 4096 + (b1 - 0x80) * 64 + (b2 - 0x80) < 0xD800 ∨
      0xE000 ≤ (b0 - 0xE0) * 4096 + (b1 - 0x80) * 64 + (b2 - 0x80)) ∧
    ((b0 - 0xE0) * 4096 + (b1 - 0x80) * 64 + (b2 - 0x80)) / 4096 = b0 - 0xE0 ∧
    ((b0 - 0xE0) * 4096 + (b1 - 0x80) * 64 + (b2 - 0x80)) / 64 % 64 = b1 - 0x80 ∧
    ((b0 - 0xE0) * 4096 + (b1 - 0x80) * 64 + (b2 - 0x80)) % 64 = b2 - 0x80 := by
  rcases Nat.lt_trichotomy b0 0xED with hlt | heq | hgt
  · rcases Nat.eq_or_lt_of_le h0 with he | hne
    · have := hE0 he.symm; omega
    · omega
  · have := hED heq; omega
  · omega

/-- Facts about the scalar value assembled from a well-checked 4-byte
sequence: its range and its base-64 digits. -/
theorem cp4_facts {b0 b1 b2 b3 : Nat} (h0 : 0xF0 ≤ b0) (h0' : b0 < 0xF5)
    (h1 : 0x80 ≤ b1) (h1' : b1 < 0xC0) (hF0 : b0 = 0xF0 → 0x90 ≤ b1)
    (hF4 : b0 = 0xF4 → b1 < 0x90) (h2 : 0x80 ≤ b2) (h2' : b2 < 0xC0)
    (h3 : 0x80 ≤ b3) (h3' : b3 < 0xC0) :
    0x10000 ≤ (b0 - 0xF0) * 262144 + (b1 - 0x80) * 4096 + (b2 - 0x80) * 64 + (b3 - 0x80) ∧
    (b0 - 0xF0) * 262144 + (b1 - 0x80) * 4096 + (b2 - 0x80) * 64 + (b3 - 0x80) < 0x110000 ∧
    ((b0 - 0xF0) * 262144 + (b1 - 0x80) * 4096 + (b2 - 0x80) * 64 + (b3 - 0x80)) / 262144
      = b0 - 0xF0 ∧
    ((b0 - 0xF0) * 262144 + (b1 - 0x80) * 4096 + (b2 - 0x80) * 64 + (b3 - 0x80)) / 4096 % 64
      = b1 - 0x80 ∧
    ((b0 - 0xF0) * 262144 + (b1 - 0x80) * 4096 + (b2 - 0x80) * 64 + (b3 - 0x80)) / 64 % 64
      = b2 - 0x80 ∧
    ((b0 - 0xF0) * 262144 + (b1 - 0x80) * 4096 + (b2 - 0x80) * 64 + (b3 - 0x80)) % 64
      = b3 - 0x80 := by
  rcases Nat.lt_trichotomy b0 0xF0 with hlt | heq | hgt
  · omega
  · have := hF0 heq; omega
  · rcases Nat.lt_trichotomy b0 0xF4 with hlt' | heq' | hgt'
    · omega
    · have := hF4 heq'; omega
    · omega

/-- Decoding an encoded scalar consumes exactly its bytes and yields it back. -/
theorem utf8Decode_encodeChar (c : Nat) (hc : Scalar c) (rest : List Nat) :
    utf8Decode (utf8EncodeChar c ++ rest) = (utf8Decode rest).map fun cs => c :: cs := by
  have hs : c < 0xD800 ∨ (0xE000 ≤ c ∧ c < 0x110000) := hc
  by_cases h1 : c < 0x80
  · rw [encodeChar_one h1]
    simp only [List.cons_append, List.nil_append]
    rw [utf8Decode.eq_def]
    simp only
    rw [if_pos h1]
  · by_cases h2 : c < 0x800
    · rw [encodeChar_two (by omega) h2]
      simp only [List.cons_append, List.nil_append]
      rw [utf8Decode.eq_def]
      simp only
      rw [if_neg (by omega), if_neg (by omega), if_pos (by omega),
        if_pos (by constructor <;> omega)]
      have he : (0xC0 + c / 64 - 0xC0) * 64 + (0x80 + c % 64 - 0x80) = c := by omega
      rw [he]
    · by_cases h3 : c < 0x10000
      · rw [encodeChar_three (by omega) h3]
        simp only [List.cons_append, List.nil_append]
        rw [utf8Decode.eq_def]
        simp only
        rw [if_neg (by omega), if_neg (by omega), if_neg (by omega), if_pos (by omega),
          if_pos (by refine ⟨by omega, by omega, ?_, ?_⟩ <;> (intro hx; omega)),
          if_pos (by constructor <;> omega)]
        have he : (0xE0 + c / 4096 - 0xE0) * 4096 + (0x80 + c / 64 % 64 - 0x80) * 64 +
            (0x80 + c % 64 - 0x80) = c := by omega
        rw [he]
      · rw [encodeChar_four (by omega)]
        simp only [List.cons_append, List.nil_append]
        rw [utf8Decode.eq_def]
        simp only
        rw [if_neg (by omega), if_neg (by omega), if_neg (by omega), if_neg (by omega),
          if_pos (by omega),
          if_pos (by refine ⟨by omega, by omega, ?_, ?_⟩ <;> (intro hx; omega)),
          if_pos (by constructor <;> omega), if_pos (by constructor <;> omega)]
        have he : (0xF0 + c / 262144 - 0xF0) * 262144 + (0x80 + c / 4096 % 64 - 0x80) * 4096 +
            (0x80 + c / 64 % 64 - 0x80) * 64 + (0x80 + c % 64 - 0x80) = c := by omega
        rw [he]

/-- Strict decoding inverts encoding on sequences of scalar values. -/
theorem utf8Decode_encode (cs : List Nat) (h : ∀ c ∈ cs, Scalar c) :
    utf8Decode (utf8Encode cs) = some cs := by
  induction cs with
  | nil => rfl
  | cons c cs ih =>
    show utf8Decode (utf8EncodeChar c ++ utf8Encode cs) = _
    rw [utf8Decode_encodeChar c (h c (by simp)), ih (fun x hx => h x (by simp [hx]))]
    rfl

/-- The UTF-8 encoding of any sequence of scalar values validates. -/
theorem validUtf8_encode (cs : List Nat) (h : ∀ c ∈ cs, Scalar c) :
    validUtf8 (utf8Encode cs) = true := by
  unfold validUtf8
  rw [utf8Decode_encode cs h]
  rfl

/-- Encoding inverts strict decoding, and decoded values are scalar values:
a valid byte sequence is exactly the encoding of its decoding. -/
theorem utf8Encode_decode (bs : List Nat) : ∀ cs, utf8Decode bs = some cs →
    utf8Encode cs = bs ∧ ∀ c ∈ cs, Scalar c := by
  induction bs using utf8Decode.induct with
  | case1 =>
    intro cs h
    refine ⟨?_, ?_⟩ <;> (cases h; first | rfl | (intro x hx; cases hx))
  | case2 b r hb ih =>
    intro cs h
    rw [utf8Decode.eq_def] at h; simp only at h
    rw [if_pos hb] at h
    obtain ⟨cs0, h0, rfl⟩ := Option.map_eq_some'.mp h
    obtain ⟨he, hsc⟩ := ih cs0 h0
    refine ⟨?_, ?_⟩
    · show utf8EncodeChar b ++ utf8Encode cs0 = b :: r
      rw [encodeChar_one hb, he]; rfl
    · intro x hx
      rcases List.mem_cons.mp hx with rfl | hx
      · exact Or.inl (by omega)
      · exact hsc x hx
  | case3 b r h1 h2 =>
    intro cs h
    rw [utf8Decode.eq_def] at h; simp only at h
    rw [if_neg h1, if_pos h2] at h
    simp at h
  | case4 b h1 h2 h3 b1 r1 hc ih =>
    intro cs h
    rw [utf8Decode.eq_def] at h; simp only at h
    rw [if_neg h1, if_neg h2, if_pos h3, if_pos hc] at h
    obtain ⟨cs0, h0, rfl⟩ := Option.map_eq_some'.mp h
    obtain ⟨he, hsc⟩ := ih cs0 h0
    obtain ⟨hca, hcb⟩ := hc
    refine ⟨?_, ?_⟩
    · show utf8EncodeChar ((b - 0xC0) * 64 + (b1 - 0x80)) ++ utf8Encode cs0 = b :: b1 :: r1
      rw [encodeChar_two (by omega) (by omega), he]
      have e1 : 0xC0 + ((b - 0xC0) * 64 + (b1 - 0x80)) / 64 = b := by omega
      have e2 : 0x80 + ((b - 0xC0) * 64 + (b1 - 0x80)) % 64 = b1 := by omega
      rw [e1, e2]; rfl
    · intro x hx
      rcases List.mem_cons.mp hx with rfl | hx
      · exact Or.inl (by omega)
      · exact hsc x hx
  | case5 b h1 h2 h3 b1 r1 hc =>
    intro cs h
    rw [utf8Decode.eq_def] at h; simp only at h
    rw [if_neg h1, if_neg h2, if_pos h3, if_neg hc] at h
    simp at h
  | case6 b h1 h2 h3 =>
    intro cs h
    rw [utf8Decode.eq_def] at h; simp only at h
    rw [if_neg h1, if_neg h2, if_pos h3] at h
    simp at h
  | case7 b h1 h2 h3 h4 b1 hb1 b2 r hb2 ih =>
    intro cs h
    rw [utf8Decode.eq_def] at h; simp only at h
    rw [if_neg h1, if_neg h2, if_neg h3, if_pos h4, if_pos hb1, if_pos hb2] at h
    obtain ⟨cs0, h0, rfl⟩ := Option.map_eq_some'.mp h
    obtain ⟨he, hsc⟩ := ih cs0 h0
    obtain ⟨ha, hb, hE0, hED⟩ := hb1
    obtain ⟨h2a, h2b⟩ := hb2
    obtain ⟨c1, c2, c3, c4, c5, c6⟩ :=
      cp3_facts (by omega) (by omega) ha hb hE0 hED h2a h2b
    refine ⟨?_, ?_⟩
    · show utf8EncodeChar ((b - 0xE0) * 4096 + (b1 - 0x80) * 64 + (b2 - 0x80)) ++
        utf8Encode cs0 = b :: b1 :: b2 :: r
      rw [encodeChar_three c1 c2, he, c4, c5, c6]
      have e1 : 0xE0 + (b - 0xE0) = b := by omega
      have e2 : 0x80 + (b1 - 0x80) = b1 := by omega
      have e3 : 0x80 + (b2 - 0x80) = b2 := by omega
      rw [e1, e2, e3]; rfl
    · intro x hx
      rcases List.mem_cons.mp hx with rfl | hx
      · exact c3.imp (fun hh => hh) (fun hh => ⟨hh, by omega⟩)
      · exact hsc x hx
  | case8 b h1 h2 h3 h4 b1 hb1 b2 r hb2 =>
    intro cs h
    rw [utf8Decode.eq_def] at h; simp only at h
    rw [if_neg h1, if_neg h2, if_neg h3, if_pos h4, if_pos hb1, if_neg hb2] at h
    simp at h
  | case9 b h1 h2 h3 h4 b1 hb1 =>
    intro cs h
    rw [utf8Decode.eq_def] at h; simp only at h
    rw [if_neg h1, if_neg h2, if_neg h3, if_pos h4, if_pos hb1] at h
    simp at h
  | case10 b h1 h2 h3 h4 b1 r1 hb1 =>
    intro cs h
    rw [utf8Decode.eq_def] at h; simp only at h
    rw [if_neg h1, if_neg h2, if_neg h3, if_pos h4, if_neg hb1] at h
    simp at h
  | case11 b h1 h2 h3 h4 =>
    intro cs h
    rw [utf8Decode.eq_def] at h; simp only at h
    rw [if_neg h1, if_neg h2, if_neg h3, if_pos h4] at h
    simp at h
  | case12 b h1 h2 h3 h4 h5 b1 hb1 b2 hb2 b3 r hb3 ih =>
    intro cs h
    rw [utf8Decode.eq_def] at h; simp only at h
    rw [if_neg h1, if_neg h2, if_neg h3, if_neg h4, if_pos h5, if_pos hb1, if_pos hb2,
      if_pos hb3] at h
    obtain ⟨cs0, h0, rfl⟩ := Option.map_eq_some'.mp h
    obtain ⟨he, hsc⟩ := ih cs0 h0
    obtain ⟨ha, hb, hF0, hF4⟩ := hb1
    obtain ⟨h2a, h2b⟩ := hb2
    obtain ⟨h3a, h3b⟩ := hb3
    obtain ⟨c1, c2, c3, c4, c5, c6⟩ :=
      cp4_facts (by omega) (by omega) ha hb hF0 hF4 h2a h2b h3a h3b
    refine ⟨?_, ?_⟩
    · show utf8EncodeChar ((b - 0xF0) * 262144 + (b1 - 0x80) * 4096 + (b2 - 0x80) * 64 +
        (b3 - 0x80)) ++ utf8Encode cs0 = b :: b1 :: b2 :: b3 :: r
      rw [encodeChar_four c1, he, c3, c4, c5, c6]
      have e1 : 0xF0 + (b - 0xF0) = b := by omega
      have e2 : 0x80 + (b1 - 0x80) = b1 := by omega
      have e3 : 0x80 + (b2 - 0x80) = b2 := by omega
      have e4 : 0x80 + (b3 - 0x80) = b3 := by omega
      rw [e1, e2, e3, e4]; rfl
    · intro x hx
      rcases List.mem_cons.mp hx with rfl | hx
      · exact Or.inr ⟨by omega, c2⟩
      · exact hsc x hx
  | case13 b h1 h2 h3 h4 h5 b1 hb1 b2 hb2 b3 r hb3 =>
    intro cs h
    rw [utf8Decode.eq_def] at h; simp only at h
    rw [if_neg h1, if_neg h2, if_neg h3, if_neg h4, if_pos h5, if_pos hb1, if_pos hb2,
      if_neg hb3] at h
    simp at h
  | case14 b h1 h2 h3 h4 h5 b1 hb1 b2 hb2 =>
    intro cs h
    rw [utf8Decode.eq_def] at h; simp only at h
    rw [if_neg h1, if_neg h2, if_neg h3, if_neg h4, if_pos h5, if_pos hb1, if_pos hb2] at h
    simp at h
  | case15 b h1 h2 h3 h4 h5 b1 hb1 b2 r hb2 =>
    intro cs h
    rw [utf8Decode.eq_def] at h; simp only at h
    rw [if_neg h1, if_neg h2, if_neg h3, if_neg h4, if_pos h5, if_pos hb1, if_neg hb2] at h
    simp at h
  | case16 b h1 h2 h3 h4 h5 b1 hb1 =>
    intro cs h
    rw [utf8Decode.eq_def] at h; simp only at h
    rw [if_neg h1, if_neg h2, if_neg h3, if_neg h4, if_pos h5, if_pos hb1] at h
    simp at h
  | case17 b h1 h2 h3 h4 h5 b1 r1 hb1 =>
    intro cs h
    rw [utf8Decode.eq_def] at h; simp only at h
    rw [if_neg h1, if_neg h2, if_neg h3, if_neg h4, if_pos h5, if_neg hb1] at h
    simp at h
  | case18 b h1 h2 h3 h4 h5 =>
    intro cs h
    rw [utf8Decode.eq_def] at h; simp only at h
    rw [if_neg h1, if_neg h2, if_neg h3, if_neg h4, if_pos h5] at h
    simp at h
  | case19 b r h1 h2 h3 h4 h5 =>
    intro cs h
    rw [utf8Decode.eq_def] at h; simp only at h
    rw [if_neg h1, if_neg h2, if_neg h3, if_neg h4, if_neg h5] at h
    simp at h

/-- On valid input the lossy decoder agrees with the strict decoder. -/
theorem utf8Lossy_of_decode (bs : List Nat) : ∀ cs, utf8Decode bs = some cs →
    utf8Lossy bs = cs := by
  induction bs using utf8Decode.induct with
  | case1 =>
    intro cs h
    cases h; rfl
  | case2 b r hb ih =>
    intro cs h
    rw [utf8Decode.eq_def] at h; simp only at h
    rw [if_pos hb] at h
    obtain ⟨cs0, h0, rfl⟩ := Option.map_eq_some'.mp h
    rw [utf8Lossy.eq_def]; simp only
    rw [if_pos hb, ih cs0 h0]
  | case3 b r h1 h2 =>
    intro cs h
    rw [utf8Decode.eq_def] at h; simp only at h
    rw [if_neg h1, if_pos h2] at h
    simp at h
  | case4 b h1 h2 h3 b1 r1 hc ih =>
    intro cs h
    rw [utf8Decode.eq_def] at h; simp only at h
    rw [if_neg h1, if_neg h2, if_pos h3, if_pos hc] at h
    obtain ⟨cs0, h0, rfl⟩ := Option.map_eq_some'.mp h
    rw [utf8Lossy.eq_def]; simp only
    rw [if_neg h1, if_neg h2, if_pos h3, if_pos hc, ih cs0 h0]
  | case5 b h1 h2 h3 b1 r1 hc =>
    intro cs h
    rw [utf8Decode.eq_def] at h; simp only at h
    rw [if_neg h1, if_neg h2, if_pos h3, if_neg hc] at h
    simp at h
  | case6 b h1 h2 h3 =>
    intro cs h
    rw [utf8Decode.eq_def] at h; simp only at h
    rw [if_neg h1, if_neg h2, if_pos h3] at h
    simp at h
  | case7 b h1 h2 h3 h4 b1 hb1 b2 r hb2 ih =>
    intro cs h
    rw [utf8Decode.eq_def] at h; simp only at h
    rw [if_neg h1, if_neg h2, if_neg h3, if_pos h4, if_pos hb1, if_pos hb2] at h
    obtain ⟨cs0, h0, rfl⟩ := Option.map_eq_some'.mp h
    rw [utf8Lossy.eq_def]; simp only
    rw [if_neg h1, if_neg h2, if_neg h3, if_pos h4, if_pos hb1, if_pos hb2, ih cs0 h0]
  | case8 b h1 h2 h3 h4 b1 hb1 b2 r hb2 =>
    intro cs h
    rw [utf8Decode.eq_def] at h; simp only at h
    rw [if_neg h1, if_neg h2, if_neg h3, if_pos h4, if_pos hb1, if_neg hb2] at h
    simp at h
  | case9 b h1 h2 h3 h4 b1 hb1 =>
    intro cs h
    rw [utf8Decode.eq_def] at h; simp only at h
    rw [if_neg h1, if_neg h2, if_neg h3, if_pos h4, if_pos hb1] at h
    simp at h
  | case10 b h1 h2 h3 h4 b1 r1 hb1 =>
    intro cs h
    rw [utf8Decode.eq_def] at h; simp only at h
    rw [if_neg h1, if_neg h2, if_neg h3, if_pos h4, if_neg hb1] at h
    simp at h
  | case11 b h1 h2 h3 h4 =>
    intro cs h
    rw [utf8Decode.eq_def] at h; simp only at h
    rw [if_neg h1, if_neg h2, if_neg h3, if_pos h4] at h
    simp at h
  | case12 b h1 h2 h3 h4 h5 b1 hb1 b2 hb2 b3 r hb3 ih =>
    intro cs h
    rw [utf8Decode.eq_def] at h; simp only at h
    rw [if_neg h1, if_neg h2, if_neg h3, if_neg h4, if_pos h5, if_pos hb1, if_pos hb2,
      if_pos hb3] at h
    obtain ⟨cs0, h0, rfl⟩ := Option.map_eq_some'.mp h
    rw [utf8Lossy.eq_def]; simp only
    rw [if_neg h1, if_neg h2, if_neg h3, if_neg h4, if_pos h5, if_pos hb1, if_pos hb2,
      if_pos hb3, ih cs0 h0]
  | case13 b h1 h2 h3 h4 h5 b1 hb1 b2 hb2 b3 r hb3 =>
    intro cs h
    rw [utf8Decode.eq_def] at h; simp only at h
    rw [if_neg h1, if_neg h2, if_neg h3, if_neg h4, if_pos h5, if_pos hb1, if_pos hb2,
      if_neg hb3] at h
    simp at h
  | case14 b h1 h2 h3 h4 h5 b1 hb1 b2 hb2 =>
    intro cs h
    rw [utf8Decode.eq_def] at h; simp only at h
    rw [if_neg h1, if_neg h2, if_neg h3, if_neg h4, if_pos h5, if_pos hb1, if_pos hb2] at h
    simp at h
  | case15 b h1 h2 h3 h4 h5 b1 hb1 b2 r hb2 =>
    intro cs h
    rw [utf8Decode.eq_def] at h; simp only at h
    rw [if_neg h1, if_neg h2, if_neg h3, if_neg h4, if_pos h5, if_pos hb1, if_neg hb2] at h
    simp at h
  | case16 b h1 h2 h3 h4 h5 b1 hb1 =>
    intro cs h
    rw [utf8Decode.eq_def] at h; simp only at h
    rw [if_neg h1, if_neg h2, if_neg h3, if_neg h4, if_pos h5, if_pos hb1] at h
    simp at h
  | case17 b h1 h2 h3 h4 h5 b1 r1 hb1 =>
    intro cs h
    rw [utf8Decode.eq_def] at h; simp only at h
    rw [if_neg h1, if_neg h2, if_neg h3, if_neg h4, if_pos h5, if_neg hb1] at h
    simp at h
  | case18 b h1 h2 h3 h4 h5 =>
    intro cs h
    rw [utf8Decode.eq_def] at h; simp only at h
    rw [if_neg h1, if_neg h2, if_neg h3, if_neg h4, if_pos h5] at h
    simp at h
  | case19 b r h1 h2 h3 h4 h5 =>
    intro cs h
    rw [utf8Decode.eq_def] at h; simp only at h
    rw [if_neg h1, if_neg h2, if_neg h3, if_neg h4, if_neg h5] at h
    simp at h

/-- Unfolding helper for `Scalar`. -/
theorem scalar_of (c : Nat) (h : c < 0xD800 ∨ (0xE000 ≤ c ∧ c < 0x110000)) : Scalar c := h

/-- Every value produced by the lossy decoder is a scalar value (either a
decoded character or the replacement character `U+FFFD`). -/
theorem utf8Lossy_scalar (bs : List Nat) : ∀ c ∈ utf8Lossy bs, Scalar c := by
  induction bs using utf8Lossy.induct with
  | case1 =>
    intro c hc
    cases hc
  | case2 b r hb ih =>
    rw [utf8Lossy.eq_def]; simp only
    rw [if_pos hb]
    intro c hc
    rcases List.mem_cons.mp hc with rfl | hc
    · exact scalar_of _ (by omega)
    · exact ih c hc
  | case3 b r h1 h2 ih =>
    rw [utf8Lossy.eq_def]; simp only
    rw [if_neg h1, if_pos h2]
    intro c hc
    rcases List.mem_cons.mp hc with rfl | hc
    · exact scalar_of _ (by omega)
    · exact ih c hc
  | case4 b h1 h2 h3 b1 r1 hc1 ih =>
    rw [utf8Lossy.eq_def]; simp only
    rw [if_neg h1, if_neg h2, if_pos h3, if_pos hc1]
    intro c hc
    rcases List.mem_cons.mp hc with rfl | hc
    · exact scalar_of _ (by omega)
    · exact ih c hc
  | case5 b h1 h2 h3 b1 r1 hc1 ih =>
    rw [utf8Lossy.eq_def]; simp only
    rw [if_neg h1, if_neg h2, if_pos h3, if_neg hc1]
    intro c hc
    rcases List.mem_cons.mp hc with rfl | hc
    · exact scalar_of _ (by omega)
    · exact ih c hc
  | case6 b h1 h2 h3 =>
    rw [utf8Lossy.eq_def]; simp only
    rw [if_neg h1, if_neg h2, if_pos h3]
    intro c hc
    rcases List.mem_cons.mp hc with rfl | hc
    · exact scalar_of _ (by omega)
    · cases hc
  | case7 b h1 h2 h3 h4 b1 hb1 b2 r hb2 ih =>
    rw [utf8Lossy.eq_def]; simp only
    rw [if_neg h1, if_neg h2, if_neg h3, if_pos h4, if_pos hb1, if_pos hb2]
    intro c hc
    obtain ⟨ha, hb, hE0, hED⟩ := hb1
    obtain ⟨c1, c2, c3, _, _, _⟩ :=
      cp3_facts (by omega) (by omega) ha hb hE0 hED hb2.1 hb2.2
    rcases List.mem_cons.mp hc with rfl | hc
    · exact scalar_of _ (by omega)
    · exact ih c hc
  | case8 b h1 h2 h3 h4 b1 hb1 b2 r hb2 ih =>
    rw [utf8Lossy.eq_def]; simp only
    rw [if_neg h1, if_neg h2, if_neg h3, if_pos h4, if_pos hb1, if_neg hb2]
    intro c hc
    rcases List.mem_cons.mp hc with rfl | hc
    · exact scalar_of _ (by omega)
    · exact ih c hc
  | case9 b h1 h2 h3 h4 b1 hb1 =>
    rw [utf8Lossy.eq_def]; simp only
    rw [if_neg h1, if_neg h2, if_neg h3, if_pos h4, if_pos hb1]
    intro c hc
    rcases List.mem_cons.mp hc with rfl | hc
    · exact scalar_of _ (by omega)
    · cases hc
  | case10 b h1 h2 h3 h4 b1 r1 hb1 ih =>
    rw [utf8Lossy.eq_def]; simp only
    rw [if_neg h1, if_neg h2, if_neg h3, if_pos h4, if_neg hb1]
    intro c hc
    rcases List.mem_cons.mp hc with rfl | hc
    · exact scalar_of _ (by omega)
    · exact ih c hc
  | case11 b h1 h2 h3 h4 =>
    rw [utf8Lossy.eq_def]; simp only
    rw [if_neg h1, if_neg h2, if_neg h3, if_pos h4]
    intro c hc
    rcases List.mem_cons.mp hc with rfl | hc
    · exact scalar_of _ (by omega)
    · cases hc
  | case12 b h1 h2 h3 h4 h5 b1 hb1 b2 hb2 b3 r hb3 ih =>
    rw [utf8Lossy.eq_def]; simp only
    rw [if_neg h1, if_neg h2, if_neg h3, if_neg h4, if_pos h5, if_pos hb1, if_pos hb2,
      if_pos hb3]
    intro c hc
    obtain ⟨ha, hb, hF0, hF4⟩ := hb1
    obtain ⟨c1, c2, _, _, _, _⟩ :=
      cp4_facts (by omega) (by omega) ha hb hF0 hF4 hb2.1 hb2.2 hb3.1 hb3.2
    rcases List.mem_cons.mp hc with rfl | hc
    · exact scalar_of _ (by omega)
    · exact ih c hc
  | case13 b h1 h2 h3 h4 h5 b1 hb1 b2 hb2 b3 r hb3 ih =>
    rw [utf8Lossy.eq_def]; simp only
    rw [if_neg h1, if_neg h2, if_neg h3, if_neg h4, if_pos h5, if_pos hb1, if_pos hb2,
      if_neg hb3]
    intro c hc
    rcases List.mem_cons.mp hc with rfl | hc
    · exact scalar_of _ (by omega)
    · exact ih c hc
  | case14 b h1 h2 h3 h4 h5 b1 hb1 b2 hb2 =>
    rw [utf8Lossy.eq_def]; simp only
    rw [if_neg h1, if_neg h2, if_neg h3, if_neg h4, if_pos h5, if_pos hb1, if_pos hb2]
    intro c hc
    rcases List.mem_cons.mp hc with rfl | hc
    · exact scalar_of _ (by omega)
    · cases hc
  | case15 b h1 h2 h3 h4 h5 b1 hb1 b2 r hb2 ih =>
    rw [utf8Lossy.eq_def]; simp only
    rw [if_neg h1, if_neg h2, if_neg h3, if_neg h4, if_pos h5, if_pos hb1, if_neg hb2]
    intro c hc
    rcases List.mem_cons.mp hc with rfl | hc
    · exact scalar_of _ (by omega)
    · exact ih c hc
  | case16 b h1 h2 h3 h4 h5 b1 hb1 =>
    rw [utf8Lossy.eq_def]; simp only
    rw [if_neg h1, if_neg h2, if_neg h3, if_neg h4, if_pos h5, if_pos hb1]
    intro c hc
    rcases List.mem_cons.mp hc with rfl | hc
    · exact scalar_of _ (by omega)
    · cases hc
  | case17 b h1 h2 h3 h4 h5 b1 r1 hb1 ih =>
    rw [utf8Lossy.eq_def]; simp only
    rw [if_neg h1, if_neg h2, if_neg h3, if_neg h4, if_pos h5, if_neg hb1]
    intro c hc
    rcases List.mem_cons.mp hc with rfl | hc
    · exact scalar_of _ (by omega)
    · exact ih c hc
  | case18 b h1 h2 h3 h4 h5 =>
    rw [utf8Lossy.eq_def]; simp only
    rw [if_neg h1, if_neg h2, if_neg h3, if_neg h4, if_pos h5]
    intro c hc
    rcases List.mem_cons.mp hc with rfl | hc
    · exact scalar_of _ (by omega)
    · cases hc
  | case19 b r h1 h2 h3 h4 h5 ih =>
    rw [utf8Lossy.eq_def]; simp only
    rw [if_neg h1, if_neg h2, if_neg h3, if_neg h4, if_neg h5]
    intro c hc
    rcases List.mem_cons.mp hc with rfl | hc
    · exact scalar_of _ (by omega)
    · exact ih c hc

/-- A valid byte sequence survives lossy decoding followed by re-encoding. -/
theorem utf8Encode_lossy_of_valid {bs : List Nat} (h : validUtf8 bs = true) :
    utf8Encode (utf8Lossy bs) = bs := by
  unfold validUtf8 at h
  obtain ⟨cs, hcs⟩ := Option.isSome_iff_exists.mp h
  rw [utf8Lossy_of_decode bs cs hcs]
  exact (utf8Encode_decode bs cs hcs).1

/-- Re-encoding the lossy decoding of any byte sequence yields valid UTF-8. -/
theorem validUtf8_encode_lossy (bs : List Nat) :
    validUtf8 (utf8Encode (utf8Lossy bs)) = true :=
  validUtf8_encode _ (utf8Lossy_scalar bs)

/-- For an invalid byte sequence, the re-encoded lossy decoding differs from
the original bytes (the repaired value is never the raw bytes again). -/
theorem utf8Encode_lossy_ne {bs : List Nat} (h : validUtf8 bs = false) :
    utf8Encode (utf8Lossy bs) ≠ bs := by
  intro he
  have hv := validUtf8_encode_lossy bs
  rw [he, h] at hv
  cases hv

/-- On code units below the surrogate range, lossy UTF-16 decoding is the
identity (in particular on any sequence of zero-extended bytes). -/
theorem utf16Lossy_id (us : List Nat) (h : ∀ u ∈ us, u < 0xD800) :
    utf16Lossy us = us := by
  induction us with
  | nil => rfl
  | cons u rest ih =>
    rw [utf16Lossy.eq_def]; simp only
    rw [if_pos (Or.inl (h u (by simp)))]
    rw [ih (fun x hx => h x (by simp [hx]))]

/-- The bytes of `repairPoints` come out unchanged: zero-extending bytes to
16-bit units never produces a surrogate, so the lossy UTF-16 decoding keeps
each unit. -/
theorem repairPoints_eq (bs : List Nat) : repairPoints bs = bs.map (fun b => b % 256) := by
  unfold repairPoints
  refine utf16Lossy_id _ ?_
  intro u hu
  obtain ⟨b, _, rfl⟩ := List.mem_map.mp hu
  omega

/-- Every value produced by the repair heuristic is a scalar value. -/
theorem repairPoints_scalar (bs : List Nat) : ∀ c ∈ repairPoints bs, Scalar c := by
  rw [repairPoints_eq]
  intro c hc
  obtain ⟨b, _, rfl⟩ := List.mem_map.mp hc
  exact Or.inl (by omega)

/-!
## The document model

`BVal` is the value tree of the binary document format as `fix_document`
sees it through the `bson` crate: a string carries its raw payload bytes
(undecoded, so an invalid payload is representable), an embedded document
carries its elements (key bytes paired with values, in order), an array
carries its items, and every other kind is an opaque pass-through payload
tagged with its type byte.
-/

inductive BVal where
  | str (payload : List Nat)
  | doc (elems : List (List Nat × BVal))
  | arr (items : List BVal)
  | other (tag : Nat) (payload : List Nat)

/-- One element of a document: key bytes paired with the value. -/
abbrev Elem : Type := List Nat × BVal

/-- The scan performed by `RawDocument::get` of the `bson` crate (used by
`get_document` / `get_array` in `fix_document`): walk the elements in order;
for each element the iterator surfaces the key (UTF-8-checked) and decodes
the value (an invalid string payload raises a `Utf8EncodingError` even if the
element is not the one looked for); return the value of the first element
whose key matches, or `none`. -/
def scanGet (k : List Nat) : List Elem → Except RErr (Option BVal)
  | [] => .ok none
  | (k2, v) :: rest =>
    if validUtf8 k2 then
      match v with
      | .str p =>
        if validUtf8 p then
          if k2 = k then .ok (some (.str p)) else scanGet k rest
        else .error .utf8Encoding
      | v2 => if k2 = k then .ok (some v2) else scanGet k rest
    else .error .utf8Encoding

/-- `RawDocument::get_document(key)` (src/main.rs line 116 uses it): the first
element with the key must be an embedded document. -/
def getDocument (k : List Nat) (es : List Elem) : Except RErr (List Elem) :=
  match scanGet k es with
  | .error e => .error e
  | .ok none => .error .notPresent
  | .ok (some (.doc d)) => .ok d
  | .ok (some _) => .error .unexpectedType

/-- `RawDocument::get_array(key)` (src/main.rs line 125): the first element
with the key must be an array. -/
def getArray (k : List Nat) (es : List Elem) : Except RErr (List BVal) :=
  match scanGet k es with
  | .error e => .error e
  | .ok none => .error .notPresent
  | .ok (some (.arr items)) => .ok items
  | .ok (some _) => .error .unexpectedType

theorem scanGet_sizeOf {k : List Nat} : ∀ {es : List Elem} {v : BVal},
    scanGet k es = .ok (some v) → sizeOf v < sizeOf es := by
  intro es
  induction es with
  | nil =>
    intro v h
    simp [scanGet] at h
  | cons e rest ih =>
    intro v h
    obtain ⟨k2, v2⟩ := e
    have hlt : sizeOf v2 < sizeOf ((k2, v2) :: rest) := by
      simp only [List.cons.sizeOf_spec, Prod.mk.sizeOf_spec]
      omega
    have htail : sizeOf rest < sizeOf ((k2, v2) :: rest) := by
      simp only [List.cons.sizeOf_spec]
      omega
    cases v2 with
    | str p =>
      rw [scanGet.eq_def] at h
      simp only at h
      by_cases hk : validUtf8 k2
      · rw [if_pos hk] at h
        by_cases hp : validUtf8 p
        · rw [if_pos hp] at h
          by_cases he : k2 = k
          · rw [if_pos he] at h
            obtain rfl : BVal.str p = v := by injection h with h1; injection h1
            exact hlt
          · rw [if_neg he] at h
            exact lt_trans (ih h) htail
        · rw [if_neg hp] at h
          exact absurd h (by simp)
      · rw [if_neg hk] at h
        exact absurd h (by simp)
    | doc d =>
      rw [scanGet.eq_def] at h
      simp only at h
      by_cases hk : validUtf8 k2
      · rw [if_pos hk] at h
        by_cases he : k2 = k
        · rw [if_pos he] at h
          obtain rfl : BVal.doc d = v := by injection h with h1; injection h1
          exact hlt
        · rw [if_neg he] at h
          exact lt_trans (ih h) htail
      · rw [if_neg hk] at h
        exact absurd h (by simp)
    | arr its =>
      rw [scanGet.eq_def] at h
      simp only at h
      by_cases hk : validUtf8 k2
      · rw [if_pos hk] at h
        by_cases he : k2 = k
        · rw [if_pos he] at h
          obtain rfl : BVal.arr its = v := by injection h with h1; injection h1
          exact hlt
        · rw [if_neg he] at h
          exact lt_trans (ih h) htail
      · rw [if_neg hk] at h
        exact absurd h (by simp)
    | other t pl =>
      rw [scanGet.eq_def] at h
      simp only at h
      by_cases hk : validUtf8 k2
      · rw [if_pos hk] at h
        by_cases he : k2 = k
        · rw [if_pos he] at h
          obtain rfl : BVal.other t pl = v := by injection h with h1; injection h1
          exact hlt
        · rw [if_neg he] at h
          exact lt_trans (ih h) htail
      · rw [if_neg hk] at h
        exact absurd h (by simp)

theorem getDocument_sizeOf {k : List Nat} {es d : List Elem}
    (h : getDocument k es = .ok d) : sizeOf d < sizeOf es := by
  unfold getDocument at h
  match hs : scanGet k es with
  | .error e => rw [hs] at h; cases h
  | .ok none => rw [hs] at h; cases h
  | .ok (some (.doc d2)) =>
    rw [hs] at h
    cases h
    have := scanGet_sizeOf hs
    simp only [BVal.doc.sizeOf_spec] at this
    omega
  | .ok (some (.str p)) => rw [hs] at h; cases h
  | .ok (some (.arr its)) => rw [hs] at h; cases h
  | .ok (some (.other t pl)) => rw [hs] at h; cases h

theorem getArray_sizeOf {k : List Nat} {es : List Elem} {its : List BVal}
    (h : getArray k es = .ok its) : sizeOf its < sizeOf es := by
  unfold getArray at h
  match hs : scanGet k es with
  | .error e => rw [hs] at h; cases h
  | .ok none => rw [hs] at h; cases h
  | .ok (some (.arr its2)) =>
    rw [hs] at h
    cases h
    have := scanGet_sizeOf hs
    simp only [BVal.arr.sizeOf_spec] at this
    omega
  | .ok (some (.str p)) => rw [hs] at h; cases h
  | .ok (some (.doc d)) => rw [hs] at h; cases h
  | .ok (some (.other t pl)) => rw [hs] at h; cases h

/-!
## The binary encoding of the document model

The byte layout of the format the program consumes (spec section 6 and the
BSON specification): `[4-byte little-endian total length][elements][0]`, each
element `[1-byte tag][key bytes][0][value bytes]`; a string value is
`[4-byte little-endian length L][L-1 payload bytes][0]`.
-/

/-- A 32-bit little-endian length field. -/
def le32 (n : Nat) : List Nat :=
  [n % 256, n / 256 % 256, n / 65536 % 256, n / 16777216 % 256]

/-- The type tag byte of a value (`ElementType`): 2 string, 3 embedded
document, 4 array; an opaque value carries its own tag. -/
def tagOf : BVal → Nat
  | .str _ => 2
  | .doc _ => 3
  | .arr _ => 4
  | .other t _ => t

/-- Wrap element bytes into a document frame: total length, body, terminator. -/
def docFrame (body : List Nat) : List Nat :=
  le32 (4 + body.length + 1) ++ body ++ [0]

/-- The decimal digits of an array index, as ASCII bytes (array values are
encoded as documents keyed `0`, `1`, ...). -/
def idxKey (i : Nat) : List Nat := (Nat.toDigits 10 i).map Char.toNat

mutual

/-- The value bytes of one value (the span `RawElement::len` measures). -/
def encodeVal : BVal → List Nat
  | .str p => le32 (p.length + 1) ++ p ++ [0]
  | .doc es => docFrame (encodeElems es)
  | .arr its => docFrame (encodeItems 0 its)
  | .other _ p => p

/-- The concatenated element bytes of a document body. -/
def encodeElems : List Elem → List Nat
  | [] => []
  | (k, v) :: rest => (tagOf v :: (k ++ 0 :: encodeVal v)) ++ encodeElems rest

/-- The concatenated element bytes of an array body, keys counting up from
the given index. -/
def encodeItems (i : Nat) : List BVal → List Nat
  | [] => []
  | v :: rest => (tagOf v :: (idxKey i ++ 0 :: encodeVal v)) ++ encodeItems (i + 1) rest

end

/-- The bytes of one element: tag, key, key terminator, value bytes. -/
def encodeElem (e : Elem) : List Nat :=
  tagOf e.2 :: (e.1 ++ 0 :: encodeVal e.2)

/-- The full byte buffer of a document (`RawDocument::as_bytes`). -/
def encodeDoc (es : List Elem) : List Nat :=
  docFrame (encodeElems es)

/-- The length the element iterator reports for an element
(`RawElement::len()` in `fix_string`): the byte length of the element's
*value* — for a string the 4-byte length prefix plus the declared length
(payload plus terminator), for an embedded document or array the declared
total length, for a fixed-width value its width. -/
def rawElemLen (v : BVal) : Nat := (encodeVal v).length

/-!
## The rewriting engine (`fix_string`, `fix_document` of src/main.rs)
-/

/-- `fix_string` (src/main.rs lines 41-101), given the raw payload bytes of a
string element whose payload failed UTF-8 validation.  `old_value_utf8` is the
payload decoded lossily (line 56); `value_utf16` reinterprets each byte as a
truncated 16-bit code unit (lines 62-63); `new_value_utf8` re-reads its UTF-8
bytes (lines 64-65).  With `confirm` set the reviewer is prompted with the
key and both texts (lines 77-90), otherwise the candidate is auto-accepted;
the accepted text is returned (lines 92-100) and appended as a string value
(UTF-8 bytes again). -/
def fixString (p k : List Nat) (confirm : Bool) (dec : Decider) : List Nat :=
  let oldText := utf8Lossy p
  let newText := utf8Lossy (utf8Encode (repairPoints p))
  let confirmation := if confirm then dec k oldText newText else true
  if confirmation then utf8Encode newText else utf8Encode oldText

mutual

/-- `fix_document` (src/main.rs lines 103-183).  `all` is the document whose
buffer the key lookups read (`doc` in the source); `rem` is the remaining
element list of the iteration.  Per element (after the iterator validates the
key): an embedded-document element is rebuilt from `get_document(key)` on the
whole document (line 116) recursively; an array element is rebuilt from
`get_array(key)` (line 125), rebuilding sub-document items recursively and
passing every other item through (lines 138-154); a string element whose
payload fails validation is replaced by `fix_string`'s output (lines 162-171),
a valid string and every other element type are appended unchanged
(lines 172-178). -/
def fixElems (all rem : List Elem) (confirm : Bool) (dec : Decider) :
    Except RErr (List Elem) :=
  match rem with
  | [] => .ok []
  | (k, v) :: rest =>
    if validUtf8 k then
      match v with
      | .doc _ =>
        match hd : getDocument k all with
        | .error e => .error e
        | .ok d =>
          match fixElems d d confirm dec with
          | .error e => .error e
          | .ok d2 =>
            match fixElems all rest confirm dec with
            | .error e => .error e
            | .ok rest2 => .ok ((k, .doc d2) :: rest2)
      | .arr _ =>
        match ha : getArray k all with
        | .error e => .error e
        | .ok items =>
          match fixItems items confirm dec with
          | .error e => .error e
          | .ok items2 =>
            match fixElems all rest confirm dec with
            | .error e => .error e
            | .ok rest2 => .ok ((k, .arr items2) :: rest2)
      | .str p =>
        if validUtf8 p then
          match fixElems all rest confirm dec with
          | .error e => .error e
          | .ok rest2 => .ok ((k, .str p) :: rest2)
        else
          match fixElems all rest confirm dec with
          | .error e => .error e
          | .ok rest2 => .ok ((k, .str (fixString p k confirm dec)) :: rest2)
      | .other t pl =>
        match fixElems all rest confirm dec with
        | .error e => .error e
        | .ok rest2 => .ok ((k, .other t pl) :: rest2)
    else .error .utf8Encoding
termination_by (sizeOf all, sizeOf rem)
decreasing_by
  · exact Prod.Lex.left _ _ (getDocument_sizeOf hd)
  · exact Prod.Lex.right _ (by simp only [List.cons.sizeOf_spec]; omega)
  · exact Prod.Lex.left _ _ (getArray_sizeOf ha)
  · exact Prod.Lex.right _ (by simp only [List.cons.sizeOf_spec]; omega)
  · exact Prod.Lex.right _ (by simp only [List.cons.sizeOf_spec]; omega)
  · exact Prod.Lex.right _ (by simp only [List.cons.sizeOf_spec]; omega)
  · exact Prod.Lex.right _ (by simp only [List.cons.sizeOf_spec]; omega)

/-- The array-item loop of `fix_document` (src/main.rs lines 138-154): each
item is surfaced by the array iterator (`item?`, so a string item with an
invalid payload raises `Utf8EncodingError`); a sub-document item is rewritten
recursively, every other item is pushed unchanged. -/
def fixItems (items : List BVal) (confirm : Bool) (dec : Decider) :
    Except RErr (List BVal) :=
  match items with
  | [] => .ok []
  | v :: rest =>
    match v with
    | .str p =>
      if validUtf8 p then
        match fixItems rest confirm dec with
        | .error e => .error e
        | .ok rest2 => .ok (.str p :: rest2)
      else .error .utf8Encoding
    | .doc d =>
      match fixElems d d confirm dec with
      | .error e => .error e
      | .ok d2 =>
        match fixItems rest confirm dec with
        | .error e => .error e
        | .ok rest2 => .ok (.doc d2 :: rest2)
    | .arr its =>
      match fixItems rest confirm dec with
      | .error e => .error e
      | .ok rest2 => .ok (.arr its :: rest2)
    | .other t pl =>
      match fixItems rest confirm dec with
      | .error e => .error e
      | .ok rest2 => .ok (.other t pl :: rest2)
termination_by (sizeOf items, 0)
decreasing_by
  · exact Prod.Lex.left _ _ (by simp only [List.cons.sizeOf_spec, BVal.str.sizeOf_spec]; omega)
  · exact Prod.Lex.left _ _ (by simp only [List.cons.sizeOf_spec, BVal.doc.sizeOf_spec]; omega)
  · exact Prod.Lex.left _ _ (by simp only [List.cons.sizeOf_spec]; omega)
  · exact Prod.Lex.left _ _ (by simp only [List.cons.sizeOf_spec]; omega)
  · exact Prod.Lex.left _ _ (by simp only [List.cons.sizeOf_spec]; omega)

end

/-- One rewriting pass over a whole document: `fix_document(doc, new_doc, _)`
building a fresh output (src/main.rs lines 103-183, called at line 230). -/
def fixDocument (es : List Elem) (confirm : Bool) (dec : Decider) :
    Except RErr (List Elem) :=
  fixElems es es confirm dec

theorem fixElems_nil (all : List Elem) (c : Bool) (dec : Decider) :
    fixElems all [] c dec = .ok [] := by
  rw [fixElems.eq_def]

theorem fixElems_badkey {k : List Nat} (hk : validUtf8 k = false) (all : List Elem)
    (v : BVal) (rest : List Elem) (c : Bool) (dec : Decider) :
    fixElems all ((k, v) :: rest) c dec = .error .utf8Encoding := by
  rw [fixElems.eq_def]
  simp only [hk]
  rfl

theorem fixElems_doc {k : List Nat} {all d : List Elem} (hk : validUtf8 k = true)
    (hget : getDocument k all = .ok d) (d0 rest : List Elem) (c : Bool) (dec : Decider) :
    fixElems all ((k, .doc d0) :: rest) c dec =
      match fixElems d d c dec with
      | .error e => .error e
      | .ok d2 =>
        match fixElems all rest c dec with
        | .error e => .error e
        | .ok rest2 => .ok ((k, .doc d2) :: rest2) := by
  rw [fixElems.eq_def]
  simp only [hk, if_true]
  split
  · rename_i e2 hd
    rw [hget] at hd
    cases hd
  · rename_i d2 hd
    rw [hget] at hd
    injection hd with h2
    subst h2
    rfl

theorem fixElems_doc_err {k : List Nat} {all : List Elem} {e : RErr}
    (hk : validUtf8 k = true) (hget : getDocument k all = .error e)
    (d0 rest : List Elem) (c : Bool) (dec : Decider) :
    fixElems all ((k, .doc d0) :: rest) c dec = .error e := by
  rw [fixElems.eq_def]
  simp only [hk, if_true]
  split
  · rename_i e2 hd
    rw [hget] at hd
    injection hd with h2
    subst h2
    rfl
  · rename_i d2 hd
    rw [hget] at hd
    cases hd

theorem fixElems_arr {k : List Nat} {all : List Elem} {items : List BVal}
    (hk : validUtf8 k = true) (hget : getArray k all = .ok items)
    (its0 : List BVal) (rest : List Elem) (c : Bool) (dec : Decider) :
    fixElems all ((k, .arr its0) :: rest) c dec =
      match fixItems items c dec with
      | .error e => .error e
      | .ok items2 =>
        match fixElems all rest c dec with
        | .error e => .error e
        | .ok rest2 => .ok ((k, .arr items2) :: rest2) := by
  rw [fixElems.eq_def]
  simp only [hk, if_true]
  split
  · rename_i e2 hd
    rw [hget] at hd
    cases hd
  · rename_i its2 hd
    rw [hget] at hd
    injection hd with h2
    subst h2
    rfl

theorem fixElems_arr_err {k : List Nat} {all : List Elem} {e : RErr}
    (hk : validUtf8 k = true) (hget : getArray k all = .error e)
    (its0 : List BVal) (rest : List Elem) (c : Bool) (dec : Decider) :
    fixElems all ((k, .arr its0) :: rest) c dec = .error e := by
  rw [fixElems.eq_def]
  simp only [hk, if_true]
  split
  · rename_i e2 hd
    rw [hget] at hd
    injection hd with h2
    subst h2
    rfl
  · rename_i its2 hd
    rw [hget] at hd
    cases hd

theorem fixElems_str_valid {k p : List Nat} (hk : validUtf8 k = true)
    (hp : validUtf8 p = true) (all rest : List Elem) (c : Bool) (dec : Decider) :
    fixElems all ((k, .str p) :: rest) c dec =
      match fixElems all rest c dec with
      | .error e => .error e
      | .ok rest2 => .ok ((k, .str p) :: rest2) := by
  rw [fixElems.eq_def]
  simp only [hk, hp, if_true]

theorem fixElems_str_invalid {k p : List Nat} (hk : validUtf8 k = true)
    (hp : validUtf8 p = false) (all rest : List Elem) (c : Bool) (dec : Decider) :
    fixElems all ((k, .str p) :: rest) c dec =
      match fixElems all rest c dec with
      | .error e => .error e
      | .ok rest2 => .ok ((k, .str (fixString p k c dec)) :: rest2) := by
  rw [fixElems.eq_def]
  simp only [hk, hp, if_true, Bool.false_eq_true, if_false]

theorem fixElems_other {k : List Nat} (hk : validUtf8 k = true) (all : List Elem)
    (t : Nat) (pl : List Nat) (rest : List Elem) (c : Bool) (dec : Decider) :
    fixElems all ((k, .other t pl) :: rest) c dec =
      match fixElems all rest c dec with
      | .error e => .error e
      | .ok rest2 => .ok ((k, .other t pl) :: rest2) := by
  rw [fixElems.eq_def]
  simp only [hk, if_true]

theorem fixItems_nil (c : Bool) (dec : Decider) : fixItems [] c dec = .ok [] := by
  rw [fixItems.eq_def]

theorem fixItems_str_valid {p : List Nat} (hp : validUtf8 p = true)
    (rest : List BVal) (c : Bool) (dec : Decider) :
    fixItems (.str p :: rest) c dec =
      match fixItems rest c dec with
      | .error e => .error e
      | .ok rest2 => .ok (.str p :: rest2) := by
  rw [fixItems.eq_def]
  simp only [hp, if_true]

theorem fixItems_str_invalid {p : List Nat} (hp : validUtf8 p = false)
    (rest : List BVal) (c : Bool) (dec : Decider) :
    fixItems (.str p :: rest) c dec = .error .utf8Encoding := by
  rw [fixItems.eq_def]
  simp only [hp, Bool.false_eq_true, if_false]

theorem fixItems_doc (d : List Elem) (rest : List BVal) (c : Bool) (dec : Decider) :
    fixItems (.doc d :: rest) c dec =
      match fixElems d d c dec with
      | .error e => .error e
      | .ok d2 =>
        match fixItems rest c dec with
        | .error e => .error e
        | .ok rest2 => .ok (.doc d2 :: rest2) := by
  rw [fixItems.eq_def]

theorem fixItems_arr (its : List BVal) (rest : List BVal) (c : Bool) (dec : Decider) :
    fixItems (.arr its :: rest) c dec =
      match fixItems rest c dec with
      | .error e => .error e
      | .ok rest2 => .ok (.arr its :: rest2) := by
  rw [fixItems.eq_def]

theorem fixItems_other (t : Nat) (pl : List Nat) (rest : List BVal) (c : Bool)
    (dec : Decider) :
    fixItems (.other t pl :: rest) c dec =
      match fixItems rest c dec with
      | .error e => .error e
      | .ok rest2 => .ok (.other t pl :: rest2) := by
  rw [fixItems.eq_def]

/-!
## Validity and key-uniqueness predicates over the document model
-/

mutual

/-- Every string payload in the value is valid UTF-8, and every key in every
nested document is valid UTF-8 (what the spec means by "no invalid text
fields"). -/
def allValidV : BVal → Bool
  | .str p => validUtf8 p
  | .doc es => allValidE es
  | .arr its => allValidL its
  | .other _ _ => true

/-- `allValidV` over the elements of a document. -/
def allValidE : List Elem → Bool
  | [] => true
  | (k, v) :: rest => validUtf8 k && allValidV v && allValidE rest

/-- `allValidV` over the items of an array. -/
def allValidL : List BVal → Bool
  | [] => true
  | v :: rest => allValidV v && allValidL rest

end

mutual

/-- No document nested anywhere in the value has two elements sharing a key. -/
def nodupV : BVal → Bool
  | .doc es => nodupE es
  | .arr its => nodupL its
  | _ => true

/-- `nodupV` over the elements of a document, including the document itself:
the head key does not recur in the tail. -/
def nodupE : List Elem → Bool
  | [] => true
  | (k, v) :: rest => rest.all (fun e => !(e.1 == k)) && nodupV v && nodupE rest

/-- `nodupV` over the items of an array. -/
def nodupL : List BVal → Bool
  | [] => true
  | v :: rest => nodupV v && nodupL rest

end

theorem allValidE_mem {es : List Elem} {k : List Nat} {v : BVal}
    (h : allValidE es = true) (hm : (k, v) ∈ es) :
    validUtf8 k = true ∧ allValidV v = true := by
  induction es with
  | nil => cases hm
  | cons e rest ih =>
    obtain ⟨k2, v2⟩ := e
    rw [allValidE] at h
    simp only [Bool.and_eq_true] at h
    rcases List.mem_cons.mp hm with he | hm2
    · cases he
      exact ⟨h.1.1, h.1.2⟩
    · exact ih h.2 hm2

theorem allValidL_mem {its : List BVal} {v : BVal}
    (h : allValidL its = true) (hm : v ∈ its) : allValidV v = true := by
  induction its with
  | nil => cases hm
  | cons v2 rest ih =>
    rw [allValidL] at h
    simp only [Bool.and_eq_true] at h
    rcases List.mem_cons.mp hm with rfl | hm2
    · exact h.1
    · exact ih h.2 hm2

theorem nodupE_mem {es : List Elem} {k : List Nat} {v : BVal}
    (h : nodupE es = true) (hm : (k, v) ∈ es) : nodupV v = true := by
  induction es with
  | nil => cases hm
  | cons e rest ih =>
    obtain ⟨k2, v2⟩ := e
    rw [nodupE] at h
    simp only [Bool.and_eq_true] at h
    rcases List.mem_cons.mp hm with he | hm2
    · cases he
      exact h.1.2
    · exact ih h.2 hm2

/-- Under key uniqueness, the first element with a member's key is that
member itself. -/
theorem nodupE_find {es : List Elem} {k : List Nat} {v : BVal}
    (h : nodupE es = true) (hm : (k, v) ∈ es) :
    es.find? (fun e => e.1 == k) = some (k, v) := by
  induction es with
  | nil => cases hm
  | cons e rest ih =>
    obtain ⟨k2, v2⟩ := e
    rw [nodupE] at h
    simp only [Bool.and_eq_true] at h
    rcases List.mem_cons.mp hm with he | hm2
    · cases he
      rw [List.find?_cons_of_pos _ (by simp)]
    · have hne : ¬(k2 == k) = true := by
        intro hbeq
        have hkk : k2 = k := eq_of_beq hbeq
        subst hkk
        have := (List.all_eq_true.mp h.1.1) _ hm2
        simp at this
      rw [List.find?_cons_of_neg _ (by simpa using hne)]
      exact ih h.2 hm2

/-- The condition under which the value-decoding scan of `RawDocument::get`
cannot fail on a document's own elements: every key and every top-level
string payload is valid UTF-8. -/
def scanClean (es : List Elem) : Bool :=
  es.all fun e =>
    validUtf8 e.1 &&
      (match e.2 with
       | .str p => validUtf8 p
       | _ => true)

theorem scanClean_of_allValid {es : List Elem} (h : allValidE es = true) :
    scanClean es = true := by
  induction es with
  | nil => rfl
  | cons e rest ih =>
    obtain ⟨k, v⟩ := e
    rw [allValidE] at h
    simp only [Bool.and_eq_true] at h
    unfold scanClean
    rw [List.all_cons]
    simp only [Bool.and_eq_true]
    refine ⟨⟨h.1.1, ?_⟩, by simpa [scanClean] using ih h.2⟩
    cases v with
    | str p =>
      have := h.1.2
      rwa [allValidV] at this
    | doc d => rfl
    | arr its => rfl
    | other t pl => rfl

/-- On a clean element list the scan returns the first value under the key. -/
theorem scanGet_of_scanClean {es : List Elem} (h : scanClean es = true) (k : List Nat) :
    scanGet k es = .ok ((es.find? fun e => e.1 == k).map Prod.snd) := by
  induction es with
  | nil => rfl
  | cons e rest ih =>
    obtain ⟨k2, v2⟩ := e
    unfold scanClean at h
    rw [List.all_cons] at h
    simp only [Bool.and_eq_true] at h
    have hk2 : validUtf8 k2 = true := h.1.1
    have ihr := ih (by simpa [scanClean] using h.2)
    by_cases he : k2 = k
    · subst he
      rw [List.find?_cons_of_pos _ (by simp)]
      cases v2 with
      | str p =>
        have hp : validUtf8 p = true := h.1.2
        rw [scanGet.eq_def]
        simp only [hk2, hp, if_true]
        rfl
      | doc d =>
        rw [scanGet.eq_def]
        simp only [hk2, if_true]
        rfl
      | arr its =>
        rw [scanGet.eq_def]
        simp only [hk2, if_true]
        rfl
      | other t pl =>
        rw [scanGet.eq_def]
        simp only [hk2, if_true]
        rfl
    · rw [List.find?_cons_of_neg _ (by simpa using he)]
      cases v2 with
      | str p =>
        have hp : validUtf8 p = true := h.1.2
        rw [scanGet.eq_def]
        simp only [hk2, hp, if_true, if_neg he]
        exact ihr
      | doc d =>
        rw [scanGet.eq_def]
        simp only [hk2, if_true, if_neg he]
        exact ihr
      | arr its =>
        rw [scanGet.eq_def]
        simp only [hk2, if_true, if_neg he]
        exact ihr
      | other t pl =>
        rw [scanGet.eq_def]
        simp only [hk2, if_true, if_neg he]
        exact ihr

/-!
## Structural fidelity: on documents with unique keys and no invalid text,
`fix_document` rebuilds the input unchanged
-/

theorem fix_id_strong : ∀ n : Nat,
    (∀ all : List Elem, sizeOf all ≤ n → nodupE all = true → allValidE all = true →
      ∀ rem : List Elem, rem <:+ all → ∀ c dec, fixElems all rem c dec = .ok rem) ∧
    (∀ its : List BVal, sizeOf its ≤ n → nodupL its = true → allValidL its = true →
      ∀ c dec, fixItems its c dec = .ok its) := by
  intro n
  induction n using Nat.strong_induction_on with
  | _ n IH =>
    constructor
    · intro all hsz hnd hav rem
      induction rem with
      | nil =>
        intro _ c dec
        exact fixElems_nil all c dec
      | cons e rest ihr =>
        intro hsuf c dec
        obtain ⟨k, v⟩ := e
        have hsuf2 : rest <:+ all := (List.suffix_cons (k, v) rest).trans hsuf
        have hmem : (k, v) ∈ all := hsuf.subset (List.mem_cons_self _ _)
        obtain ⟨hk, hvv⟩ := allValidE_mem hav hmem
        have hrest := ihr hsuf2 c dec
        cases v with
        | doc D =>
          have hscan : scanGet k all = .ok (some (.doc D)) := by
            rw [scanGet_of_scanClean (scanClean_of_allValid hav) k, nodupE_find hnd hmem]
            rfl
          have hget : getDocument k all = .ok D := by
            unfold getDocument
            rw [hscan]
          have hDsz : sizeOf D < sizeOf all := getDocument_sizeOf hget
          have hDnd : nodupE D = true := by
            have := nodupE_mem hnd hmem
            rwa [nodupV] at this
          have hDav : allValidE D = true := by
            have := hvv
            rwa [allValidV] at this
          have hD : fixElems D D c dec = .ok D :=
            (IH (sizeOf D) (lt_of_lt_of_le hDsz hsz)).1 D (le_refl _) hDnd hDav D
              (List.suffix_refl D) c dec
          rw [fixElems_doc hk hget, hD, hrest]
        | arr its =>
          have hscan : scanGet k all = .ok (some (.arr its)) := by
            rw [scanGet_of_scanClean (scanClean_of_allValid hav) k, nodupE_find hnd hmem]
            rfl
          have hget : getArray k all = .ok its := by
            unfold getArray
            rw [hscan]
          have hIsz : sizeOf its < sizeOf all := getArray_sizeOf hget
          have hInd : nodupL its = true := by
            have := nodupE_mem hnd hmem
            rwa [nodupV] at this
          have hIav : allValidL its = true := by
            have := hvv
            rwa [allValidV] at this
          have hIts : fixItems its c dec = .ok its :=
            (IH (sizeOf its) (lt_of_lt_of_le hIsz hsz)).2 its (le_refl _) hInd hIav c dec
          rw [fixElems_arr hk hget, hIts, hrest]
        | str p =>
          have hp : validUtf8 p = true := by
            rwa [allValidV] at hvv
          rw [fixElems_str_valid hk hp, hrest]
        | other t pl =>
          rw [fixElems_other hk, hrest]
    · intro its
      induction its with
      | nil =>
        intro _ _ _ c dec
        exact fixItems_nil c dec
      | cons v rest ihl =>
        intro hsz hnd hav c dec
        rw [nodupL] at hnd
        rw [allValidL] at hav
        simp only [Bool.and_eq_true] at hnd hav
        have hrsz : sizeOf rest ≤ n := by
          have : sizeOf rest < sizeOf (v :: rest) := by
            simp only [List.cons.sizeOf_spec]
            omega
          omega
        have hrest := ihl hrsz hnd.2 hav.2 c dec
        cases v with
        | str p =>
          have hp : validUtf8 p = true := by
            have := hav.1
            rwa [allValidV] at this
          rw [fixItems_str_valid hp, hrest]
        | doc D =>
          have hDsz : sizeOf D < sizeOf (BVal.doc D :: rest) := by
            simp only [List.cons.sizeOf_spec, BVal.doc.sizeOf_spec]
            omega
          have hDnd : nodupE D = true := by
            have := hnd.1
            rwa [nodupV] at this
          have hDav : allValidE D = true := by
            have := hav.1
            rwa [allValidV] at this
          have hD : fixElems D D c dec = .ok D :=
            (IH (sizeOf D) (lt_of_lt_of_le hDsz hsz)).1 D (le_refl _) hDnd hDav D
              (List.suffix_refl D) c dec
          rw [fixItems_doc, hD, hrest]
        | arr its2 =>
          rw [fixItems_arr, hrest]
        | other t pl =>
          rw [fixItems_other, hrest]

/-- Structural fidelity (spec section 8): on a document with unique keys in
which every string payload validates, `fix_document` returns the input
unchanged, no matter the confirmation mode or the reviewer's answers. -/
theorem fixDocument_id {es : List Elem} (hnd : nodupE es = true)
    (hav : allValidE es = true) (c : Bool) (dec : Decider) :
    fixDocument es c dec = .ok es :=
  (fix_id_strong (sizeOf es)).1 es (le_refl _) hnd hav es (List.suffix_refl es) c dec

/-!
## Idempotence: characterising the output of a pass and rewriting it again
-/

/-- The payload bytes `fix_document` emits for a string element: an already
valid payload is copied, an invalid one is replaced by `fix_string`'s output. -/
def strEmit (p k : List Nat) (c : Bool) (dec : Decider) : List Nat :=
  if validUtf8 p then p else fixString p k c dec

theorem validUtf8_fixString (p k : List Nat) (c : Bool) (dec : Decider) :
    validUtf8 (fixString p k c dec) = true := by
  unfold fixString
  by_cases hc : (if c then dec k (utf8Lossy p) (utf8Lossy (utf8Encode (repairPoints p)))
      else true) = true
  · rw [if_pos hc]
    exact validUtf8_encode_lossy _
  · rw [if_neg hc]
    exact validUtf8_encode_lossy _

theorem validUtf8_strEmit (p k : List Nat) (c : Bool) (dec : Decider) :
    validUtf8 (strEmit p k c dec) = true := by
  unfold strEmit
  by_cases hp : validUtf8 p = true
  · rw [if_pos hp]
    exact hp
  · rw [if_neg hp]
    exact validUtf8_fixString p k c dec

/-- How one input value relates to the value emitted for it by a pass of
`fix_document` over the document `all`. -/
def valRel (all : List Elem) (c : Bool) (dec : Decider) (k : List Nat) :
    BVal → BVal → Prop
  | .doc _, v2 => ∃ d d2, getDocument k all = .ok d ∧ fixElems d d c dec = .ok d2 ∧
      v2 = .doc d2
  | .arr _, v2 => ∃ its its2, getArray k all = .ok its ∧ fixItems its c dec = .ok its2 ∧
      v2 = .arr its2
  | .str p, v2 => v2 = .str (strEmit p k c dec)
  | .other t pl, v2 => v2 = .other t pl

/-- Pointwise characterisation of a pass's output: keys are preserved (and
valid), and each output value relates to its input value by `valRel`. -/
def outMatch (all : List Elem) (c : Bool) (dec : Decider) :
    List Elem → List Elem → Prop
  | [], [] => True
  | (k, v) :: rem, e2 :: out =>
      e2.1 = k ∧ validUtf8 k = true ∧ valRel all c dec k v e2.2 ∧ outMatch all c dec rem out
  | [], _ :: _ => False
  | _ :: _, [] => False

theorem outMatch_of_fixElems {all : List Elem} {c : Bool} {dec : Decider} :
    ∀ {rem out : List Elem}, fixElems all rem c dec = .ok out →
      outMatch all c dec rem out := by
  intro rem
  induction rem with
  | nil =>
    intro out h
    rw [fixElems_nil] at h
    injection h with h2
    subst h2
    exact trivial
  | cons e rest ih =>
    intro out h
    obtain ⟨k, v⟩ := e
    by_cases hk : validUtf8 k = true
    · cases v with
      | doc D0 =>
        match hget : getDocument k all with
        | .error e2 =>
          rw [fixElems_doc_err hk hget] at h
          cases h
        | .ok D =>
          rw [fixElems_doc hk hget] at h
          match hD : fixElems D D c dec with
          | .error e2 =>
            rw [hD] at h
            cases h
          | .ok D2 =>
            rw [hD] at h
            match hrest : fixElems all rest c dec with
            | .error e2 =>
              rw [hrest] at h
              cases h
            | .ok rest2 =>
              rw [hrest] at h
              injection h with h2
              subst h2
              exact ⟨rfl, hk, ⟨D, D2, hget, hD, rfl⟩, ih hrest⟩
      | arr A0 =>
        match hget : getArray k all with
        | .error e2 =>
          rw [fixElems_arr_err hk hget] at h
          cases h
        | .ok its =>
          rw [fixElems_arr hk hget] at h
          match hI : fixItems its c dec with
          | .error e2 =>
            rw [hI] at h
            cases h
          | .ok its2 =>
            rw [hI] at h
            match hrest : fixElems all rest c dec with
            | .error e2 =>
              rw [hrest] at h
              cases h
            | .ok rest2 =>
              rw [hrest] at h
              injection h with h2
              subst h2
              exact ⟨rfl, hk, ⟨its, its2, hget, hI, rfl⟩, ih hrest⟩
      | str p =>
        by_cases hp : validUtf8 p = true
        · rw [fixElems_str_valid hk hp] at h
          match hrest : fixElems all rest c dec with
          | .error e2 =>
            rw [hrest] at h
            cases h
          | .ok rest2 =>
            rw [hrest] at h
            injection h with h2
            subst h2
            refine ⟨rfl, hk, ?_, ih hrest⟩
            show BVal.str p = .str (strEmit p k c dec)
            rw [strEmit, if_pos hp]
        · have hp2 : validUtf8 p = false := by
            cases hvp : validUtf8 p
            · rfl
            · exact absurd hvp hp
          rw [fixElems_str_invalid hk hp2] at h
          match hrest : fixElems all rest c dec with
          | .error e2 =>
            rw [hrest] at h
            cases h
          | .ok rest2 =>
            rw [hrest] at h
            injection h with h2
            subst h2
            refine ⟨rfl, hk, ?_, ih hrest⟩
            show BVal.str (fixString p k c dec) = .str (strEmit p k c dec)
            rw [strEmit, if_neg hp]
      | other t pl =>
        rw [fixElems_other hk] at h
        match hrest : fixElems all rest c dec with
        | .error e2 =>
          rw [hrest] at h
          cases h
        | .ok rest2 =>
          rw [hrest] at h
          injection h with h2
          subst h2
          exact ⟨rfl, hk, rfl, ih hrest⟩
    · have hk2 : validUtf8 k = false := by
        cases hvk : validUtf8 k
        · rfl
        · exact absurd hvk hk
      rw [fixElems_badkey hk2] at h
      cases h

/-- The output of a pass is clean for scanning: keys are the (valid) input
keys and emitted string payloads validate. -/
theorem scanClean_outMatch {all : List Elem} {c : Bool} {dec : Decider} :
    ∀ {rem orem : List Elem}, outMatch all c dec rem orem → scanClean orem = true := by
  intro rem
  induction rem with
  | nil =>
    intro orem h
    cases orem with
    | nil => rfl
    | cons e out => exact absurd h (by simp [outMatch])
  | cons e rest ih =>
    intro orem h
    obtain ⟨k, v⟩ := e
    cases orem with
    | nil => exact absurd h (by simp [outMatch])
    | cons e2 out =>
      obtain ⟨hke, hk, hrel, hrest⟩ := h
      unfold scanClean
      rw [List.all_cons]
      simp only [Bool.and_eq_true]
      refine ⟨⟨by rw [hke]; exact hk, ?_⟩, by simpa [scanClean] using ih hrest⟩
      cases v with
      | doc D0 =>
        obtain ⟨d, d2, _, _, hv2⟩ := hrel
        rw [hv2]
      | arr A0 =>
        obtain ⟨its, its2, _, _, hv2⟩ := hrel
        rw [hv2]
      | str p =>
        rw [show e2.2 = .str (strEmit p k c dec) from hrel]
        exact validUtf8_strEmit p k c dec
      | other t pl =>
        rw [show e2.2 = .other t pl from hrel]

theorem scanGet_cons_badkey {k2 : List Nat} (hk2 : validUtf8 k2 = false)
    (k : List Nat) (v : BVal) (rest : List Elem) :
    scanGet k ((k2, v) :: rest) = .error .utf8Encoding := by
  rw [scanGet.eq_def]
  cases v <;> simp only [hk2, Bool.false_eq_true, if_false]

theorem scanGet_cons_str_valid {k2 p : List Nat} (hk2 : validUtf8 k2 = true)
    (hp : validUtf8 p = true) (k : List Nat) (rest : List Elem) :
    scanGet k ((k2, .str p) :: rest) =
      if k2 = k then .ok (some (.str p)) else scanGet k rest := by
  rw [scanGet.eq_def]
  simp only [hk2, hp, if_true]

theorem scanGet_cons_str_invalid {k2 p : List Nat} (hk2 : validUtf8 k2 = true)
    (hp : validUtf8 p = false) (k : List Nat) (rest : List Elem) :
    scanGet k ((k2, .str p) :: rest) = .error .utf8Encoding := by
  rw [scanGet.eq_def]
  simp only [hk2, hp, if_true, Bool.false_eq_true, if_false]

theorem scanGet_cons_doc {k2 : List Nat} (hk2 : validUtf8 k2 = true)
    (k : List Nat) (d : List Elem) (rest : List Elem) :
    scanGet k ((k2, .doc d) :: rest) =
      if k2 = k then .ok (some (.doc d)) else scanGet k rest := by
  rw [scanGet.eq_def]
  simp only [hk2, if_true]

theorem scanGet_cons_arr {k2 : List Nat} (hk2 : validUtf8 k2 = true)
    (k : List Nat) (its : List BVal) (rest : List Elem) :
    scanGet k ((k2, .arr its) :: rest) =
      if k2 = k then .ok (some (.arr its)) else scanGet k rest := by
  rw [scanGet.eq_def]
  simp only [hk2, if_true]

theorem scanGet_cons_other {k2 : List Nat} (hk2 : validUtf8 k2 = true)
    (k : List Nat) (t : Nat) (pl : List Nat) (rest : List Elem) :
    scanGet k ((k2, .other t pl) :: rest) =
      if k2 = k then .ok (some (.other t pl)) else scanGet k rest := by
  rw [scanGet.eq_def]
  simp only [hk2, if_true]

theorem getDocument_scan {k : List Nat} {es d : List Elem}
    (h : getDocument k es = .ok d) : scanGet k es = .ok (some (.doc d)) := by
  unfold getDocument at h
  match hs : scanGet k es with
  | .error e => rw [hs] at h; cases h
  | .ok none => rw [hs] at h; cases h
  | .ok (some (.doc d2)) =>
    rw [hs] at h
    injection h with h2
    subst h2
    rfl
  | .ok (some (.str p)) => rw [hs] at h; cases h
  | .ok (some (.arr its)) => rw [hs] at h; cases h
  | .ok (some (.other t pl)) => rw [hs] at h; cases h

theorem getArray_scan {k : List Nat} {es : List Elem} {its : List BVal}
    (h : getArray k es = .ok its) : scanGet k es = .ok (some (.arr its)) := by
  unfold getArray at h
  match hs : scanGet k es with
  | .error e => rw [hs] at h; cases h
  | .ok none => rw [hs] at h; cases h
  | .ok (some (.arr its2)) =>
    rw [hs] at h
    injection h with h2
    subst h2
    rfl
  | .ok (some (.str p)) => rw [hs] at h; cases h
  | .ok (some (.doc d)) => rw [hs] at h; cases h
  | .ok (some (.other t pl)) => rw [hs] at h; cases h

/-- Scan correspondence: whatever a scan finds in the input document, the
scan of the pass's output finds the related emitted value under the same key. -/
theorem scanGet_outMatch {all : List Elem} {c : Bool} {dec : Decider} :
    ∀ {rem orem : List Elem}, outMatch all c dec rem orem →
      ∀ {k : List Nat} {v : BVal}, scanGet k rem = .ok (some v) →
        ∃ v2, scanGet k orem = .ok (some v2) ∧ valRel all c dec k v v2 := by
  intro rem
  induction rem with
  | nil =>
    intro orem hm k v h
    simp [scanGet] at h
  | cons e rest ih =>
    intro orem hm k v h
    obtain ⟨k0, v0⟩ := e
    cases orem with
    | nil => exact absurd hm (by simp [outMatch])
    | cons e2 orest =>
      obtain ⟨k02, v02⟩ := e2
      obtain ⟨hke, hk0, hrel, hrest⟩ := hm
      have hke2 : k0 = k02 := hke.symm
      subst hke2
      cases v0 with
      | str p =>
        have hv02 : v02 = .str (strEmit p k0 c dec) := hrel
        subst hv02
        by_cases hp : validUtf8 p = true
        · rw [scanGet_cons_str_valid hk0 hp] at h
          by_cases he : k0 = k
          · rw [if_pos he] at h
            injection h with h2
            injection h2 with h3
            subst h3
            subst he
            refine ⟨.str (strEmit p k0 c dec), ?_, rfl⟩
            rw [scanGet_cons_str_valid hk0 (validUtf8_strEmit p k0 c dec), if_pos rfl]
          · rw [if_neg he] at h
            obtain ⟨v2, hscan, hrel2⟩ := ih hrest h
            refine ⟨v2, ?_, hrel2⟩
            rw [scanGet_cons_str_valid hk0 (validUtf8_strEmit p k0 c dec), if_neg he]
            exact hscan
        · have hp2 : validUtf8 p = false := by
            cases hvp : validUtf8 p
            · rfl
            · exact absurd hvp hp
          rw [scanGet_cons_str_invalid hk0 hp2] at h
          cases h
      | doc D0 =>
        obtain ⟨d, d2, hget, hfix, hv02⟩ := hrel
        subst hv02
        rw [scanGet_cons_doc hk0] at h
        by_cases he : k0 = k
        · rw [if_pos he] at h
          injection h with h2
          injection h2 with h3
          subst h3
          subst he
          refine ⟨.doc d2, ?_, ⟨d, d2, hget, hfix, rfl⟩⟩
          rw [scanGet_cons_doc hk0, if_pos rfl]
        · rw [if_neg he] at h
          obtain ⟨v2, hscan, hrel2⟩ := ih hrest h
          refine ⟨v2, ?_, hrel2⟩
          rw [scanGet_cons_doc hk0, if_neg he]
          exact hscan
      | arr A0 =>
        obtain ⟨its, its2, hget, hfix, hv02⟩ := hrel
        subst hv02
        rw [scanGet_cons_arr hk0] at h
        by_cases he : k0 = k
        · rw [if_pos he] at h
          injection h with h2
          injection h2 with h3
          subst h3
          subst he
          refine ⟨.arr its2, ?_, ⟨its, its2, hget, hfix, rfl⟩⟩
          rw [scanGet_cons_arr hk0, if_pos rfl]
        · rw [if_neg he] at h
          obtain ⟨v2, hscan, hrel2⟩ := ih hrest h
          refine ⟨v2, ?_, hrel2⟩
          rw [scanGet_cons_arr hk0, if_neg he]
          exact hscan
      | other t pl =>
        have hv02 : v02 = .other t pl := hrel
        subst hv02
        rw [scanGet_cons_other hk0] at h
        by_cases he : k0 = k
        · rw [if_pos he] at h
          injection h with h2
          injection h2 with h3
          subst h3
          subst he
          exact ⟨.other t pl, by rw [scanGet_cons_other hk0, if_pos rfl], hrel⟩
        · rw [if_neg he] at h
          obtain ⟨v2, hscan, hrel2⟩ := ih hrest h
          refine ⟨v2, ?_, hrel2⟩
          rw [scanGet_cons_other hk0, if_neg he]
          exact hscan

theorem fix_stable_strong : ∀ n : Nat,
    (∀ (c : Bool) (dec : Decider) (c2 : Bool) (dec2 : Decider) (all out : List Elem),
      sizeOf all ≤ n → fixElems all all c dec = .ok out →
      ∀ rem orem, outMatch all c dec rem orem → fixElems out orem c2 dec2 = .ok orem) ∧
    (∀ (c : Bool) (dec : Decider) (c2 : Bool) (dec2 : Decider) (its : List BVal),
      sizeOf its ≤ n → ∀ its2, fixItems its c dec = .ok its2 →
      fixItems its2 c2 dec2 = .ok its2) := by
  intro n
  induction n using Nat.strong_induction_on with
  | _ n IH =>
    constructor
    · intro c dec c2 dec2 all out hsz hfull rem
      have hfullm : outMatch all c dec all out := outMatch_of_fixElems hfull
      induction rem with
      | nil =>
        intro orem hm
        cases orem with
        | nil => exact fixElems_nil out c2 dec2
        | cons e o => exact absurd hm (by simp [outMatch])
      | cons e rest ihr =>
        intro orem hm
        obtain ⟨k, v⟩ := e
        cases orem with
        | nil => exact absurd hm (by simp [outMatch])
        | cons e2 orest =>
          obtain ⟨k2, v2⟩ := e2
          obtain ⟨hke, hk, hrel, hrest⟩ := hm
          have hke2 : k = k2 := hke.symm
          subst hke2
          have hrest2 := ihr orest hrest
          cases v with
          | str p =>
            have hv2 : v2 = .str (strEmit p k c dec) := hrel
            subst hv2
            rw [fixElems_str_valid hk (validUtf8_strEmit p k c dec), hrest2]
          | other t pl =>
            have hv2 : v2 = .other t pl := hrel
            subst hv2
            rw [fixElems_other hk, hrest2]
          | doc D0 =>
            obtain ⟨D, D2, hget, hD, hv2⟩ := hrel
            subst hv2
            have hscanAll : scanGet k all = .ok (some (.doc D)) := getDocument_scan hget
            obtain ⟨w2, hscanOut, hw⟩ := scanGet_outMatch hfullm hscanAll
            obtain ⟨D', D2', hget', hD', hw2⟩ := hw
            have hDD : D = D' := by
              rw [hget] at hget'
              injection hget'
            subst hDD
            have hD2 : D2 = D2' := by
              rw [hD] at hD'
              injection hD'
            subst hD2
            subst hw2
            have hgetOut : getDocument k out = .ok D2 := by
              unfold getDocument
              rw [hscanOut]
            have hDsz : sizeOf D < sizeOf all := getDocument_sizeOf hget
            have hstep : fixElems D2 D2 c2 dec2 = .ok D2 :=
              (IH (sizeOf D) (lt_of_lt_of_le hDsz hsz)).1 c dec c2 dec2 D D2 (le_refl _)
                hD D D2 (outMatch_of_fixElems hD)
            rw [fixElems_doc hk hgetOut, hstep, hrest2]
          | arr A0 =>
            obtain ⟨its, its2, hget, hI, hv2⟩ := hrel
            subst hv2
            have hscanAll : scanGet k all = .ok (some (.arr its)) := getArray_scan hget
            obtain ⟨w2, hscanOut, hw⟩ := scanGet_outMatch hfullm hscanAll
            obtain ⟨its', its2', hget', hI', hw2⟩ := hw
            have hII : its = its' := by
              rw [hget] at hget'
              injection hget'
            subst hII
            have hI2 : its2 = its2' := by
              rw [hI] at hI'
              injection hI'
            subst hI2
            subst hw2
            have hgetOut : getArray k out = .ok its2 := by
              unfold getArray
              rw [hscanOut]
            have hIsz : sizeOf its < sizeOf all := getArray_sizeOf hget
            have hstep : fixItems its2 c2 dec2 = .ok its2 :=
              (IH (sizeOf its) (lt_of_lt_of_le hIsz hsz)).2 c dec c2 dec2 its (le_refl _)
                its2 hI
            rw [fixElems_arr hk hgetOut, hstep, hrest2]
    · intro c dec c2 dec2 its
      induction its with
      | nil =>
        intro _ its2 h
        rw [fixItems_nil] at h
        injection h with h2
        subst h2
        exact fixItems_nil c2 dec2
      | cons v rest ihl =>
        intro hsz its2 h
        have hrsz : sizeOf rest ≤ n := by
          have : sizeOf rest < sizeOf (v :: rest) := by
            simp only [List.cons.sizeOf_spec]
            omega
          omega
        cases v with
        | str p =>
          by_cases hp : validUtf8 p = true
          · rw [fixItems_str_valid hp] at h
            match hr : fixItems rest c dec with
            | .error e2 =>
              rw [hr] at h
              cases h
            | .ok rest2 =>
              rw [hr] at h
              injection h with h2
              subst h2
              rw [fixItems_str_valid hp, ihl hrsz rest2 hr]
          · have hp2 : validUtf8 p = false := by
              cases hvp : validUtf8 p
              · rfl
              · exact absurd hvp hp
            rw [fixItems_str_invalid hp2] at h
            cases h
        | doc D =>
          rw [fixItems_doc] at h
          match hD : fixElems D D c dec with
          | .error e2 =>
            rw [hD] at h
            cases h
          | .ok D2 =>
            rw [hD] at h
            match hr : fixItems rest c dec with
            | .error e2 =>
              rw [hr] at h
              cases h
            | .ok rest2 =>
              rw [hr] at h
              injection h with h2
              subst h2
              have hDsz : sizeOf D < sizeOf (BVal.doc D :: rest) := by
                simp only [List.cons.sizeOf_spec, BVal.doc.sizeOf_spec]
                omega
              have hstep : fixElems D2 D2 c2 dec2 = .ok D2 :=
                (IH (sizeOf D) (lt_of_lt_of_le hDsz hsz)).1 c dec c2 dec2 D D2 (le_refl _)
                  hD D D2 (outMatch_of_fixElems hD)
              rw [fixItems_doc, hstep, ihl hrsz rest2 hr]
        | arr A =>
          rw [fixItems_arr] at h
          match hr : fixItems rest c dec with
          | .error e2 =>
            rw [hr] at h
            cases h
          | .ok rest2 =>
            rw [hr] at h
            injection h with h2
            subst h2
            rw [fixItems_arr, ihl hrsz rest2 hr]
        | other t pl =>
          rw [fixItems_other] at h
          match hr : fixItems rest c dec with
          | .error e2 =>
            rw [hr] at h
            cases h
          | .ok rest2 =>
            rw [hr] at h
            injection h with h2
            subst h2
            rw [fixItems_other, ihl hrsz rest2 hr]

/-- Idempotence (spec section 8): a document produced by one rewriting pass is
left untouched by a second pass, whatever the confirmation mode and reviewer
answers of either pass. -/
theorem fixDocument_stable {es out : List Elem} {c : Bool} {dec : Decider}
    (h : fixDocument es c dec = .ok out) (c2 : Bool) (dec2 : Decider) :
    fixDocument out c2 dec2 = .ok out :=
  (fix_stable_strong (sizeOf es)).1 c dec c2 dec2 es out (le_refl _) h es out
    (outMatch_of_fixElems h)

/-!
## The offset arithmetic of `fix_string` against the byte layout

`fix_string` computes its byte ranges from the running cursor `start`
maintained by `fix_document` (src/main.rs lines 50-55 and 180); these
definitions transcribe that arithmetic.
-/

/-- `let key_start = start + 4 + 1;` (src/main.rs line 50). -/
def keyStart (start : Nat) : Nat := start + 4 + 1

/-- `let value_start = key_start + key.len();` (src/main.rs line 54). -/
def valueStart (start : Nat) (key : List Nat) : Nat := keyStart start + key.length

/-- The lower slice bound of `raw_value`: `value_start + 4 + 1`
(src/main.rs line 55). -/
def rawValueLo (start : Nat) (key : List Nat) : Nat := valueStart start key + 4 + 1

/-- The upper slice bound of `raw_value`: `value_start + elem.len()`
(src/main.rs line 55). -/
def rawValueHi (start : Nat) (key : List Nat) (elemLen : Nat) : Nat :=
  valueStart start key + elemLen

/-- The cursor increment `start += 1 + key.len() + 1 + elem.len();`
(src/main.rs line 180). -/
def cursorStep (key : List Nat) (elemLen : Nat) : Nat := 1 + key.length + 1 + elemLen

/-- The cursor value when `fix_document` reaches element `i`: the sum of the
increments for the elements before it. -/
def startOf : List Elem → Nat → Nat
  | _, 0 => 0
  | [], _ + 1 => 0
  | e :: rest, i + 1 => cursorStep e.1 (rawElemLen e.2) + startOf rest i

theorem encodeElems_cons (k : List Nat) (v : BVal) (rest : List Elem) :
    encodeElems ((k, v) :: rest) = encodeElem (k, v) ++ encodeElems rest := rfl

theorem length_encodeElem (e : Elem) :
    (encodeElem e).length = cursorStep e.1 (rawElemLen e.2) := by
  obtain ⟨k, v⟩ := e
  simp only [encodeElem, cursorStep, rawElemLen, List.length_cons, List.length_append]
  omega

theorem encodeElems_append (a b : List Elem) :
    encodeElems (a ++ b) = encodeElems a ++ encodeElems b := by
  induction a with
  | nil => rfl
  | cons e rest ih =>
    obtain ⟨k, v⟩ := e
    rw [List.cons_append, encodeElems_cons, encodeElems_cons, ih, List.append_assoc]

/-- The running cursor equals the byte length of the preceding elements. -/
theorem startOf_eq (es : List Elem) (i : Nat) :
    startOf es i = (encodeElems (es.take i)).length := by
  induction i generalizing es with
  | zero => cases es <;> rfl
  | succ i ih =>
    cases es with
    | nil => rfl
    | cons e rest =>
      obtain ⟨k, v⟩ := e
      show cursorStep k (rawElemLen v) + startOf rest i = _
      rw [List.take_succ_cons, encodeElems_cons, List.length_append, ih rest,
        length_encodeElem (k, v)]

/-- Splitting the element bytes of a document at a string element. -/
theorem encodeElems_split {es : List Elem} {i : Nat} {k p : List Nat}
    (h : es[i]? = some (k, .str p)) :
    encodeElems es =
      encodeElems (es.take i) ++
        (encodeElem (k, .str p) ++ encodeElems (es.drop (i + 1))) := by
  have hi : i < es.length := (List.getElem?_eq_some.mp h).1
  have hsplit : es.drop i = (k, .str p) :: es.drop (i + 1) := by
    rw [List.drop_eq_getElem_cons hi, (List.getElem?_eq_some.mp h).2]
  conv_lhs => rw [← List.take_append_drop i es]
  rw [encodeElems_append, hsplit, encodeElems_cons]

theorem le32_length (n : Nat) : (le32 n).length = 4 := rfl

theorem le32_drop (n : Nat) (xs : List Nat) : (le32 n ++ xs).drop 4 = xs := rfl

/-- Dropping the frame header and preceding elements lands on the element. -/
theorem encodeDoc_drop {es : List Elem} {i : Nat} {k p : List Nat}
    (h : es[i]? = some (k, .str p)) :
    (encodeDoc es).drop (4 + startOf es i) =
      encodeElem (k, .str p) ++ (encodeElems (es.drop (i + 1)) ++ [0]) := by
  rw [encodeDoc, docFrame, List.append_assoc, ← List.drop_drop, le32_drop, startOf_eq,
    encodeElems_split h, List.append_assoc, List.drop_left, List.append_assoc]

/-- Peeling tag, key, key terminator and length prefix off a string element's
bytes reaches the payload. -/
theorem drop_encodeElem_str (k p rest : List Nat) :
    (encodeElem (k, .str p) ++ rest).drop (1 + k.length + 1 + 4) = p ++ 0 :: rest := by
  have h0 : encodeElem (k, .str p) ++ rest =
      2 :: (k ++ 0 :: (le32 (p.length + 1) ++ (p ++ 0 :: rest))) := by
    simp [encodeElem, encodeVal, tagOf, List.append_assoc]
  rw [h0, show 1 + k.length + 1 + 4 = (k.length + 5) + 1 from by omega,
    List.drop_succ_cons, ← List.drop_drop, List.drop_left,
    show (5 : Nat) = 1 + 4 from rfl, ← List.drop_drop, List.drop_one, List.tail_cons,
    le32_drop]

/-- Dropping the tag byte of an element reaches its key bytes. -/
theorem key_slice (k : List Nat) (v : BVal) (rest : List Nat) :
    ((encodeElem (k, v) ++ rest).drop 1).take k.length = k := by
  show (((tagOf v :: (k ++ 0 :: encodeVal v)) ++ rest).drop 1).take k.length = k
  rw [List.cons_append, List.drop_one, List.tail_cons, List.append_assoc, List.take_left]

theorem rawElemLen_str (p : List Nat) : rawElemLen (.str p) = 4 + p.length + 1 := by
  simp only [rawElemLen, encodeVal, List.length_append, le32_length, List.length_cons,
    List.length_nil]

/-- The byte length of a string element. -/
theorem length_encodeElem_str (k p : List Nat) :
    (encodeElem (k, .str p)).length = k.length + p.length + 7 := by
  rw [length_encodeElem]
  show cursorStep k (rawElemLen (.str p)) = _
  rw [cursorStep, rawElemLen_str]
  omega

/-!
## Well-formedness of a document for traversal by the element iterator
-/

/-- The value sizes the `bson` crate's iterator assigns to the fixed-width
element types (double, object id, boolean, datetime, null, undefined, int32,
timestamp, int64, decimal128, min/max key). -/
def tagFixedSize (t : Nat) : Option Nat :=
  if t = 1 then some 8
  else if t = 6 then some 0
  else if t = 7 then some 12
  else if t = 8 then some 1
  else if t = 9 then some 8
  else if t = 10 then some 0
  else if t = 16 then some 4
  else if t = 17 then some 8
  else if t = 18 then some 8
  else if t = 19 then some 16
  else if t = 127 then some 0
  else if t = 255 then some 0
  else none

/-- Well-formedness of an element for offset bookkeeping: the key is valid
UTF-8 with no interior zero byte (a cstring), and an opaque value's payload
has exactly the width its tag dictates, so the iterator's reported length
agrees with the encoded length. -/
def wfElem (e : Elem) : Bool :=
  validUtf8 e.1 && e.1.all (fun b => b != 0) &&
    (match e.2 with
     | .other t pl => tagFixedSize t == some pl.length
     | _ => true)

/-- Well-formedness of a document's top-level elements. -/
def wfTop (es : List Elem) : Bool := es.all wfElem

theorem wfTop_mem {es : List Elem} {e : Elem} (h : wfTop es = true) (hm : e ∈ es) :
    wfElem e = true :=
  List.all_eq_true.mp h e hm

/-!
## The per-record loop of `main` (src/main.rs lines 215-252)
-/

/-- Console and store actions a record's processing emits.  `replaceOne`
models a conditional write-back (`collection.replace_one`); the loop body of
`main` never performs one. -/
inductive Action where
  | printId
  | printDiff (before after : List Elem)
  | printDebug
  | replaceOne (filter : List Elem) (replacement : List Elem)

/-- Whether an action is a store write-back. -/
def actionIsReplace : Action → Bool
  | .replaceOne _ _ => true
  | _ => false

/-- Read a 32-bit little-endian integer (a length field of the format). -/
def readLe32 : List Nat → Option Nat
  | b0 :: b1 :: b2 :: b3 :: _ => some (b0 + 256 * b1 + 65536 * b2 + 16777216 * b3)
  | _ => none

/-- The byte size of a value, computed from its tag and (for length-prefixed
kinds: string, embedded document, array, binary) the length field at the
start of the value — exactly how the iterator advances without decoding.
A length with the sign bit set (the field is an `i32`) or an unknown tag is
a structural error. -/
def valueSize (tag : Nat) (after : List Nat) : Except RErr Nat :=
  match tagFixedSize tag with
  | some n => .ok n
  | none =>
    match readLe32 after with
    | none => .error .structural
    | some len =>
      if 2147483648 ≤ len then .error .structural
      else if tag = 2 then
        if 1 ≤ len then .ok (4 + len) else .error .structural
      else if tag = 3 ∨ tag = 4 then .ok len
      else if tag = 5 then .ok (4 + 1 + len)
      else .error .badTag

mutual

/-- Decode one value from its raw bytes into the document model (fuel-bounded
recursion; the top-level wrapper supplies ample fuel). -/
def parseVal (fuel : Nat) (tag : Nat) (vb : List Nat) : Except RErr BVal :=
  match fuel with
  | 0 => .error .outOfFuel
  | fuel + 1 =>
    if tag = 2 then
      match readLe32 vb with
      | some len =>
        if 1 ≤ len then .ok (.str ((vb.drop 4).take (len - 1))) else .error .structural
      | none => .error .structural
    else if tag = 3 then
      match parseDoc fuel vb with
      | .ok es => .ok (.doc es)
      | .error e => .error e
    else if tag = 4 then
      match parseDoc fuel vb with
      | .ok es => .ok (.arr (es.map Prod.snd))
      | .error e => .error e
    else .ok (.other tag vb)

/-- Scan the element region of a document buffer (everything after the
4-byte header): read tag and cstring key, size the value from declared
lengths, check it fits the buffer, decode it, and continue behind it. -/
def parseFields (fuel : Nat) (bs : List Nat) : Except RErr (List Elem) :=
  match fuel with
  | 0 => .error .outOfFuel
  | fuel + 1 =>
    match bs with
    | [] => .error .structural
    | [b] => if b = 0 then .ok [] else .error .structural
    | b :: rest =>
      if b = 0 then .error .badTag
      else
        let key := rest.takeWhile (fun x => x != 0)
        if key.length = rest.length then .error .structural
        else
          let after := rest.drop (key.length + 1)
          match valueSize b after with
          | .error e => .error e
          | .ok vs =>
            if vs ≤ after.length then
              match parseVal fuel b (after.take vs) with
              | .error e => .error e
              | .ok v =>
                match parseFields fuel (after.drop vs) with
                | .error e => .error e
                | .ok es => .ok ((key, v) :: es)
            else .error .structural

/-- Decode a whole document buffer: 4-byte total length matching the buffer
length, trailing zero byte, then the element region. -/
def parseDoc (fuel : Nat) (bs : List Nat) : Except RErr (List Elem) :=
  match fuel with
  | 0 => .error .outOfFuel
  | fuel + 1 =>
    if 5 ≤ bs.length then
      match readLe32 bs with
      | some total =>
        if total = bs.length then
          match bs.getLast? with
          | some 0 => parseFields fuel (bs.drop 4)
          | _ => .error .structural
        else .error .structural
      | none => .error .structural
    else .error .structural

end

/-- Decode a record's raw bytes (`Cursor<RawDocumentBuf>` deserialisation
plus the iterator's structural checks). -/
def parseDocTop (bs : List Nat) : Except RErr (List Elem) :=
  parseDoc (bs.length + 1) bs

mutual

/-- A computable structural size of a value (fuel bound for the typed
conversion below). -/
def sizeV : BVal → Nat
  | .str _ => 1
  | .other _ _ => 1
  | .doc es => 1 + sizeE es
  | .arr its => 1 + sizeL its

/-- Structural size of a document's elements. -/
def sizeE : List Elem → Nat
  | [] => 1
  | (_, v) :: rest => 1 + sizeV v + sizeE rest

/-- Structural size of an array's items. -/
def sizeL : List BVal → Nat
  | [] => 1
  | v :: rest => 1 + sizeV v + sizeL rest

end

/-- First-position, last-value insertion of `Document::insert` (used when a
raw document is converted with `to_document`): a repeated key overwrites the
earlier value in place. -/
def insertDoc (m : List Elem) (k : List Nat) (v : BVal) : List Elem :=
  if m.any (fun e => e.1 == k) then m.map (fun e => if e.1 == k then (k, v) else e)
  else m ++ [(k, v)]

mutual

/-- `RawDocumentBuf::to_document` on a value: the typed conversion validates
every string payload and collapses duplicate keys (fuel-bounded). -/
def toDocVal (fuel : Nat) (v : BVal) : Except RErr BVal :=
  match fuel with
  | 0 => .error .outOfFuel
  | fuel + 1 =>
    match v with
    | .str p => if validUtf8 p then .ok (.str p) else .error .utf8Encoding
    | .doc es =>
      match toDocElems fuel [] es with
      | .ok m => .ok (.doc m)
      | .error e => .error e
    | .arr its =>
      match toDocItems fuel its with
      | .ok its2 => .ok (.arr its2)
      | .error e => .error e
    | .other t pl => .ok (.other t pl)

/-- `to_document` over a document's elements, inserting left to right. -/
def toDocElems (fuel : Nat) (acc : List Elem) (es : List Elem) :
    Except RErr (List Elem) :=
  match fuel with
  | 0 => .error .outOfFuel
  | fuel + 1 =>
    match es with
    | [] => .ok acc
    | (k, v) :: rest =>
      if validUtf8 k then
        match toDocVal fuel v with
        | .ok v2 => toDocElems fuel (insertDoc acc k v2) rest
        | .error e => .error e
      else .error .utf8Encoding

/-- `to_document` over an array's items. -/
def toDocItems (fuel : Nat) (its : List BVal) : Except RErr (List BVal) :=
  match fuel with
  | 0 => .error .outOfFuel
  | fuel + 1 =>
    match its with
    | [] => .ok []
    | v :: rest =>
      match toDocVal fuel v with
      | .ok v2 =>
        match toDocItems fuel rest with
        | .ok rest2 => .ok (v2 :: rest2)
        | .error e => .error e
      | .error e => .error e

end

/-- `to_document` on a whole document tree. -/
def toDocumentTop (es : List Elem) : Except RErr (List Elem) :=
  toDocElems (sizeE es + 1) [] es

mutual

/-- Boolean equality of values (the `Document` comparison `doc != fixed_doc`,
src/main.rs line 241). -/
def beqV : BVal → BVal → Bool
  | .str p, .str q => p == q
  | .doc es, .doc fs => beqE es fs
  | .arr xs, .arr ys => beqL xs ys
  | .other t p, .other u q => t == u && p == q
  | _, _ => false

/-- Boolean equality of element lists. -/
def beqE : List Elem → List Elem → Bool
  | [], [] => true
  | (k1, v1) :: r1, (k2, v2) :: r2 => k1 == k2 && beqV v1 v2 && beqE r1 r2
  | _, _ => false

/-- Boolean equality of item lists. -/
def beqL : List BVal → List BVal → Bool
  | [], [] => true
  | v1 :: r1, v2 :: r2 => beqV v1 v2 && beqL r1 r2
  | _, _ => false

end

/-- The body of `main`'s record loop (src/main.rs lines 215-252): decode the
record, print its identity (lines 219-227), rewrite it (line 230), convert
both versions with `to_document` (lines 236-237) and report: a comparison is
printed when both conversions succeed and differ (lines 240-243), a failed
conversion of the original with a successful conversion of the rewrite is
fine (lines 245-247), anything else is debug-printed (lines 248-251).
No write-back of any kind is issued. -/
def diffActs (d fixed : List Elem) : List Action :=
  match toDocumentTop d, toDocumentTop fixed with
  | .ok t1, .ok t2 =>
    Action.printId :: (if beqE t1 t2 then [] else [Action.printDiff t1 t2])
  | .error _, .ok _ => [Action.printId]
  | _, _ => [Action.printId, Action.printDebug]

def recordActions (raw : List Nat) (confirm : Bool) (dec : Decider) :
    Except RErr (List Action) :=
  match parseDocTop raw with
  | .error e => .error e
  | .ok d =>
    match fixDocument d confirm dec with
    | .error e => .error e
    | .ok fixed => .ok (diffActs d fixed)

/-- The record loop itself (`while let Some(raw_doc) = cursor.try_next()`,
src/main.rs line 215): records are processed in order and any record error
propagates out of `main` through `?`. -/
def runStream (recs : List (List Nat)) (confirm : Bool) (dec : Decider) :
    Except RErr (List (List Action)) :=
  match recs with
  | [] => .ok []
  | r :: rest =>
    match recordActions r confirm dec with
    | .error e => .error e
    | .ok acts =>
      match runStream rest confirm dec with
      | .error e => .error e
      | .ok rest2 => .ok (acts :: rest2)

theorem recordActions_perr {raw : List Nat} {e : RErr}
    (hp : parseDocTop raw = .error e) (c : Bool) (dec : Decider) :
    recordActions raw c dec = .error e := by
  unfold recordActions
  rw [hp]

theorem recordActions_ferr {raw : List Nat} {d : List Elem}
    (hp : parseDocTop raw = .ok d) {c : Bool} {dec : Decider} {e : RErr}
    (hf : fixDocument d c dec = .error e) :
    recordActions raw c dec = .error e := by
  unfold recordActions
  rw [hp]
  show (match fixDocument d c dec with
    | Except.error e => (Except.error e : Except RErr (List Action))
    | Except.ok fixed => Except.ok (diffActs d fixed)) = Except.error e
  rw [hf]

theorem recordActions_ok {raw : List Nat} {d : List Elem}
    (hp : parseDocTop raw = .ok d) {c : Bool} {dec : Decider} {fixed : List Elem}
    (hf : fixDocument d c dec = .ok fixed) :
    recordActions raw c dec = .ok (diffActs d fixed) := by
  unfold recordActions
  rw [hp]
  show (match fixDocument d c dec with
    | Except.error e => (Except.error e : Except RErr (List Action))
    | Except.ok fixed => Except.ok (diffActs d fixed)) = _
  rw [hf]

theorem runStream_cons_ok {r : List Nat} {c : Bool} {dec : Decider}
    {acts : List Action} (h1 : recordActions r c dec = .ok acts)
    {rest : List (List Nat)} {out : List (List Action)}
    (h2 : runStream rest c dec = .ok out) :
    runStream (r :: rest) c dec = .ok (acts :: out) := by
  unfold runStream
  rw [h1]
  show (match runStream rest c dec with
    | Except.error e => (Except.error e : Except RErr (List (List Action)))
    | Except.ok rest2 => Except.ok (acts :: rest2)) = _
  rw [h2]

/-!
## The claims
-/

/-- C1 (counterexample): the claim fails at the spec's own example.  The
two-unit sequence `0x0410 0x0411` truncates to the bytes `0x10 0x11`, but the
repair pipeline decodes those bytes to the code points `0x10 0x11`, not to
the original `0x0410 0x0411`: the high byte of a unit `≥ 0x100` is
irrecoverable. -/
theorem c1_counterexample :
    [0x0410, 0x0411].map (fun u => u % 256) = [0x10, 0x11] ∧
    repairPoints [0x10, 0x11] = [0x10, 0x11] ∧
    repairPoints [0x10, 0x11] ≠ [0x0410, 0x0411] := by
  refine ⟨rfl, rfl, by decide⟩

/-- C1 (amended): the repair heuristic recovers the original code points of a
16-bit code-unit sequence truncated to its low bytes exactly when every
original unit is below `0x100` (then the truncation loses nothing and the
zero-extension is its inverse). -/
theorem c1_repair_low_units (units : List Nat) (h : ∀ u ∈ units, u < 0x100) :
    repairPoints (units.map (fun u => u % 256)) = units := by
  rw [repairPoints_eq, List.map_map]
  induction units with
  | nil => rfl
  | cons u us ih =>
    rw [List.map_cons, ih (fun x hx => h x (List.mem_cons_of_mem _ hx))]
    have hu : u < 256 := h u (List.mem_cons_self _ _)
    show u % 256 % 256 :: us = u :: us
    congr 1
    omega

/-- C1 (witness): the spec's realistic example, text `Áî` stored as units
`0x00C1 0x00EE`, round-trips through truncation and repair. -/
theorem c1_witness :
    (∀ u ∈ [0xC1, 0xEE], u < 0x100) ∧
      repairPoints ([0xC1, 0xEE].map (fun u => u % 256)) = [0xC1, 0xEE] :=
  ⟨by decide, c1_repair_low_units [0xC1, 0xEE] (by decide)⟩

/-- C2 (counterexample): with duplicate keys the rewriter is not the identity
even though every string payload is valid: both embedded-document elements
keyed `a` are rebuilt from the first occurrence's payload, so the second one
changes and the output bytes differ from the input bytes. -/
theorem c2_counterexample :
    allValidE [([0x61], .doc []), ([0x61], .doc [([0x62], .str [0x41])])] = true ∧
    fixDocument [([0x61], .doc []), ([0x61], .doc [([0x62], .str [0x41])])] false decTrue
      = .ok [([0x61], .doc []), ([0x61], .doc [])] ∧
    encodeDoc [([0x61], BVal.doc []), ([0x61], BVal.doc [([0x62], BVal.str [0x41])])]
      ≠ encodeDoc [([0x61], BVal.doc []), ([0x61], BVal.doc [])] := by
  refine ⟨rfl, ?_, by decide⟩
  have hk : validUtf8 [0x61] = true := rfl
  have hget : getDocument [0x61]
      [([0x61], BVal.doc []), ([0x61], BVal.doc [([0x62], BVal.str [0x41])])] = .ok [] := rfl
  show fixElems _ _ _ _ = _
  rw [fixElems_doc hk hget, fixElems_nil, fixElems_doc hk hget, fixElems_nil, fixElems_nil]

/-- C2 (amended): structural fidelity holds for documents without duplicate
keys: if no document nested in the input has two elements sharing a key and
every string payload (and key) validates, the rewriter returns the input
unchanged — hence the rewritten byte encoding of every element, and of the
whole document, is identical to the original. -/
theorem c2_fidelity (es : List Elem) (hnd : nodupE es = true)
    (hav : allValidE es = true) (c : Bool) (dec : Decider) :
    fixDocument es c dec = .ok es :=
  fixDocument_id hnd hav c dec

/-- C2 (witness): a document with a valid string, a nested document and an
array is returned unchanged even with confirmation on and a reviewer who
declines everything. -/
theorem c2_witness :
    nodupE [([0x61], .str [0x41]), ([0x62], .doc [([0x63], .other 16 [1, 0, 0, 0])]),
        ([0x64], .arr [.str [0x42]])] = true ∧
    allValidE [([0x61], .str [0x41]), ([0x62], .doc [([0x63], .other 16 [1, 0, 0, 0])]),
        ([0x64], .arr [.str [0x42]])] = true ∧
    fixDocument [([0x61], .str [0x41]), ([0x62], .doc [([0x63], .other 16 [1, 0, 0, 0])]),
        ([0x64], .arr [.str [0x42]])] true decFalse
      = .ok [([0x61], .str [0x41]), ([0x62], .doc [([0x63], .other 16 [1, 0, 0, 0])]),
        ([0x64], .arr [.str [0x42]])] :=
  ⟨rfl, rfl,
    c2_fidelity [([0x61], .str [0x41]), ([0x62], .doc [([0x63], .other 16 [1, 0, 0, 0])]),
      ([0x64], .arr [.str [0x42]])] rfl rfl true decFalse⟩

/-- C3: the byte range `fix_string` computes from declared lengths matches
the format layout exactly.  For a string element at index `i` with the
running cursor `startOf es i`: the lower slice bound equals the element's
byte offset (`4 + startOf es i`, the header plus the preceding elements'
bytes, which is what the fourth conjunct states) plus one tag byte, the key,
one key terminator and the 4-byte length prefix; the upper slice bound equals
the element offset plus its encoded length minus the trailing terminator
byte; and the cursor increment of `fix_document` is exactly the element's
encoded length. -/
theorem c3_layout (es : List Elem) (i : Nat) (k p : List Nat)
    (h : es[i]? = some (k, .str p)) (hinv : validUtf8 p = false) :
    rawValueLo (startOf es i) k = (4 + startOf es i) + (1 + k.length + 1 + 4) ∧
    rawValueHi (startOf es i) k (rawElemLen (.str p)) + 1
      = (4 + startOf es i) + (encodeElem (k, .str p)).length ∧
    cursorStep k (rawElemLen (.str p)) = (encodeElem (k, .str p)).length ∧
    4 + startOf es i = 4 + (encodeElems (es.take i)).length := by
  refine ⟨?_, ?_, ?_, ?_⟩
  · unfold rawValueLo valueStart keyStart
    omega
  · rw [length_encodeElem_str]
    unfold rawValueHi valueStart keyStart
    rw [rawElemLen_str]
    omega
  · rw [length_encodeElem_str, cursorStep, rawElemLen_str]
    omega
  · rw [startOf_eq]

/-- C3 (witness): the layout equalities at a concrete one-element document. -/
theorem c3_witness :
    ([([0x61], BVal.str [0xFF])][0]? = some ([0x61], .str [0xFF])) ∧
    validUtf8 [0xFF] = false ∧
    (rawValueLo (startOf [([0x61], BVal.str [0xFF])] 0) [0x61]
        = (4 + startOf [([0x61], BVal.str [0xFF])] 0) + (1 + [0x61].length + 1 + 4) ∧
      rawValueHi (startOf [([0x61], BVal.str [0xFF])] 0) [0x61] (rawElemLen (.str [0xFF])) + 1
        = (4 + startOf [([0x61], BVal.str [0xFF])] 0)
            + (encodeElem ([0x61], .str [0xFF])).length ∧
      cursorStep [0x61] (rawElemLen (.str [0xFF]))
        = (encodeElem ([0x61], .str [0xFF])).length ∧
      4 + startOf [([0x61], BVal.str [0xFF])] 0
        = 4 + (encodeElems ([([0x61], BVal.str [0xFF])].take 0)).length) :=
  ⟨rfl, rfl, c3_layout [([0x61], BVal.str [0xFF])] 0 [0x61] [0xFF] rfl rfl⟩

/-- C4 (code bug): an array item that is a string with an invalid payload is
not repaired; surfacing it from the array iterator raises the UTF-8 error,
which aborts the whole record's rewrite.  The claim (and the spec) say the
item gets the same validity check and repair path as top-level string fields;
the source's array-repair arm is commented out and marked
`// TODO: fix array types` (src/main.rs lines 136-144). -/
theorem c4_array_string_error :
    fixDocument [([0x61], .arr [.str [0xFF]])] false decTrue = .error .utf8Encoding := by
  have hk : validUtf8 [0x61] = true := rfl
  have hp : validUtf8 [0xFF] = false := rfl
  have hget : getArray [0x61] [([0x61], BVal.arr [BVal.str [0xFF]])]
      = .ok [BVal.str [0xFF]] := rfl
  show fixElems _ _ _ _ = _
  rw [fixElems_arr hk hget, fixItems_str_invalid hp]

/-- C5 (counterexample): a record whose string element declares a length of
1000 bytes in a 12-byte buffer hits the structural-corruption check, and the
error terminates the whole run — the second (well-formed) record is never
processed, though on its own it processes fine. -/
theorem c5_counterexample :
    runStream [[12, 0, 0, 0, 2, 0x61, 0, 0xE8, 3, 0, 0, 0],
        [12, 0, 0, 0, 0x10, 0x61, 0, 5, 0, 0, 0, 0]] false decTrue
      = .error .structural ∧
    runStream [[12, 0, 0, 0, 0x10, 0x61, 0, 5, 0, 0, 0, 0]] false decTrue
      = .ok [[Action.printId]] := by
  constructor
  · rfl
  · have hk : validUtf8 [0x61] = true := rfl
    have hp : parseDocTop [12, 0, 0, 0, 0x10, 0x61, 0, 5, 0, 0, 0, 0]
        = .ok [([0x61], BVal.other 0x10 [5, 0, 0, 0])] := rfl
    have hfix : fixDocument [([0x61], BVal.other 0x10 [5, 0, 0, 0])] false decTrue
        = .ok [([0x61], BVal.other 0x10 [5, 0, 0, 0])] := by
      show fixElems _ _ _ _ = _
      rw [fixElems_other hk, fixElems_nil]
    have hrec : recordActions [12, 0, 0, 0, 0x10, 0x61, 0, 5, 0, 0, 0, 0] false decTrue
        = .ok [Action.printId] := (recordActions_ok hp hfix).trans rfl
    exact runStream_cons_ok hrec rfl

/-- C5 (amended): an error in one record's processing — in particular a
structural-corruption error — is fatal for the whole run, not only for that
record: it propagates out of the record loop through `?` and no later record
in the stream is processed. -/
theorem c5_error_aborts (r : List Nat) (rest : List (List Nat)) (c : Bool)
    (dec : Decider) (e : RErr) (h : recordActions r c dec = .error e) :
    runStream (r :: rest) c dec = .error e := by
  unfold runStream
  rw [h]

/-- C5 (witness): the corrupt record aborts a run that still had records
left. -/
theorem c5_witness :
    recordActions [12, 0, 0, 0, 2, 0x61, 0, 0xE8, 3, 0, 0, 0] false decTrue
      = .error .structural ∧
    runStream [[12, 0, 0, 0, 2, 0x61, 0, 0xE8, 3, 0, 0, 0],
        [12, 0, 0, 0, 0x10, 0x61, 0, 5, 0, 0, 0, 0]] false decTrue
      = .error .structural :=
  ⟨rfl, c5_error_aborts [12, 0, 0, 0, 2, 0x61, 0, 0xE8, 3, 0, 0, 0]
    [[12, 0, 0, 0, 0x10, 0x61, 0, 5, 0, 0, 0, 0]] false decTrue .structural rfl⟩

/-- C6: when the reviewer declines the candidate for an invalid string
payload, `fix_string` returns the original payload decoded lossily
(`old_value_utf8`, src/main.rs lines 56 and 98); its UTF-8 bytes always
validate, and they are never the original invalid bytes. -/
theorem c6_decline_fallback (p k : List Nat) (dec : Decider)
    (hp : validUtf8 p = false)
    (hdec : dec k (utf8Lossy p) (utf8Lossy (utf8Encode (repairPoints p))) = false) :
    fixString p k true dec = utf8Encode (utf8Lossy p) ∧
    validUtf8 (fixString p k true dec) = true ∧
    fixString p k true dec ≠ p := by
  have he : fixString p k true dec = utf8Encode (utf8Lossy p) := by
    unfold fixString
    simp only [if_true, hdec, Bool.false_eq_true, if_false]
  refine ⟨he, ?_, ?_⟩
  · rw [he]
    exact validUtf8_encode_lossy p
  · rw [he]
    exact utf8Encode_lossy_ne hp

/-- C6 (witness): declining the repair of the invalid payload `0xFF` emits
the lossy decoding `U+FFFD` re-encoded, which validates and differs from the
raw byte. -/
theorem c6_witness :
    validUtf8 [0xFF] = false ∧
    decFalse [0x61] (utf8Lossy [0xFF]) (utf8Lossy (utf8Encode (repairPoints [0xFF])))
      = false ∧
    (fixString [0xFF] [0x61] true decFalse = utf8Encode (utf8Lossy [0xFF]) ∧
      validUtf8 (fixString [0xFF] [0x61] true decFalse) = true ∧
      fixString [0xFF] [0x61] true decFalse ≠ [0xFF]) :=
  ⟨rfl, rfl, c6_decline_fallback [0xFF] [0x61] decFalse rfl rfl⟩

/-- C7: the rewriter is idempotent.  Whatever document a first pass produced
— under any confirmation mode and any reviewer answers — a second pass, again
under any mode and answers, returns it unchanged: every emitted string
payload validates, embedded documents and arrays re-resolve to the values
already emitted, and everything else is copied. -/
theorem c7_idempotent (es out : List Elem) (c : Bool) (dec : Decider)
    (h : fixDocument es c dec = .ok out) (c2 : Bool) (dec2 : Decider) :
    fixDocument out c2 dec2 = .ok out :=
  fixDocument_stable h c2 dec2

/-- C7 (witness): the repaired one-string document is a fixed point of a
second pass with confirmation on and an all-declining reviewer. -/
theorem c7_witness :
    fixDocument [([0x61], .str [0xC3, 0xBF])] true decFalse
      = .ok [([0x61], .str [0xC3, 0xBF])] :=
  c7_idempotent [([0x61], .str [0xFF])] [([0x61], .str [0xC3, 0xBF])] false decTrue
    (by
      have hk : validUtf8 [0x61] = true := rfl
      have hp : validUtf8 [0xFF] = false := rfl
      show fixElems _ _ _ _ = _
      rw [fixElems_str_invalid hk hp, fixElems_nil]
      rfl)
    true decFalse

/-- C8 (counterexample): a record with an invalid string field is changed by
the rewrite, and no dry-run flag exists to enable, yet its processing emits
no write-back of any kind — the loop only prints (here: only the identity
line, since the original fails `to_document` while the rewrite converts). -/
theorem c8_counterexample :
    parseDocTop [14, 0, 0, 0, 2, 0x61, 0, 2, 0, 0, 0, 0xFF, 0, 0]
      = .ok [([0x61], .str [0xFF])] ∧
    fixDocument [([0x61], .str [0xFF])] false decTrue
      = .ok [([0x61], .str [0xC3, 0xBF])] ∧
    ([([0x61], BVal.str [0xC3, 0xBF])] : List Elem) ≠ [([0x61], BVal.str [0xFF])] ∧
    recordActions [14, 0, 0, 0, 2, 0x61, 0, 2, 0, 0, 0, 0xFF, 0, 0] false decTrue
      = .ok [Action.printId] ∧
    ∀ a ∈ [Action.printId], actionIsReplace a = false := by
  have hk : validUtf8 [0x61] = true := rfl
  have hp : validUtf8 [0xFF] = false := rfl
  have hfix : fixDocument [([0x61], .str [0xFF])] false decTrue
      = .ok [([0x61], .str [0xC3, 0xBF])] := by
    show fixElems _ _ _ _ = _
    rw [fixElems_str_invalid hk hp, fixElems_nil]
    rfl
  have hpp : parseDocTop [14, 0, 0, 0, 2, 0x61, 0, 2, 0, 0, 0, 0xFF, 0, 0]
      = .ok [([0x61], BVal.str [0xFF])] := rfl
  refine ⟨rfl, hfix, by simp, (recordActions_ok hpp hfix).trans rfl, ?_⟩
  intro a ha
  rcases List.mem_singleton.mp ha with rfl
  rfl

/-- C8 (amended): no write-back is ever issued for any record: the loop body
of `main` has no replace call and no dry-run flag; it only prints the record
identity, a before/after comparison, or debug output. -/
theorem c8_no_writeback (raw : List Nat) (c : Bool) (dec : Decider)
    (acts : List Action) (h : recordActions raw c dec = .ok acts) :
    ∀ a ∈ acts, actionIsReplace a = false := by
  match hp : parseDocTop raw with
  | .error e =>
    rw [recordActions_perr hp c dec] at h
    cases h
  | .ok d =>
    match hf : fixDocument d c dec with
    | .error e =>
      rw [recordActions_ferr hp hf] at h
      cases h
    | .ok fixed =>
      rw [recordActions_ok hp hf] at h
      injection h with h3
      subst h3
      intro a ha
      unfold diffActs at ha
      split at ha
      · rcases List.mem_cons.mp ha with rfl | ha2
        · rfl
        · split at ha2
          · cases ha2
          · rcases List.mem_singleton.mp ha2 with rfl
            rfl
      · rcases List.mem_singleton.mp ha with rfl
        rfl
      · rcases List.mem_cons.mp ha with rfl | ha2
        · rfl
        · rcases List.mem_singleton.mp ha2 with rfl
          rfl

/-- C8 (witness): the amended claim at the concrete changed record. -/
theorem c8_witness :
    recordActions [14, 0, 0, 0, 2, 0x61, 0, 2, 0, 0, 0, 0xFF, 0, 0] false decTrue
      = .ok [Action.printId] ∧
    actionIsReplace Action.printId = false := by
  have hk : validUtf8 [0x61] = true := rfl
  have hv : validUtf8 [0xFF] = false := rfl
  have hpp : parseDocTop [14, 0, 0, 0, 2, 0x61, 0, 2, 0, 0, 0, 0xFF, 0, 0]
      = .ok [([0x61], BVal.str [0xFF])] := rfl
  have hfix : fixDocument [([0x61], BVal.str [0xFF])] false decTrue
      = .ok [([0x61], BVal.str [0xC3, 0xBF])] := by
    show fixElems _ _ _ _ = _
    rw [fixElems_str_invalid hk hv, fixElems_nil]
    rfl
  have hrec : recordActions [14, 0, 0, 0, 2, 0x61, 0, 2, 0, 0, 0, 0xFF, 0, 0] false decTrue
      = .ok [Action.printId] := (recordActions_ok hpp hfix).trans rfl
  exact ⟨hrec,
    c8_no_writeback [14, 0, 0, 0, 2, 0x61, 0, 2, 0, 0, 0, 0xFF, 0, 0] false decTrue
      [Action.printId] hrec Action.printId (List.mem_singleton.mpr rfl)⟩

/-- C9 (counterexample): duplicate keys do not pass through unchanged.  In a
document with two embedded-document elements keyed `k`, the second element is
rebuilt from the first occurrence's payload (the key lookup of line 116
resolves to the first match), so the output differs from the input. -/
theorem c9_counterexample :
    fixDocument [([0x6B], .doc [([0x78], .other 16 [1, 0, 0, 0])]),
        ([0x6B], .doc [([0x79], .other 16 [2, 0, 0, 0])])] false decTrue
      = .ok [([0x6B], .doc [([0x78], .other 16 [1, 0, 0, 0])]),
        ([0x6B], .doc [([0x78], .other 16 [1, 0, 0, 0])])] ∧
    ([([0x6B], BVal.doc [([0x78], BVal.other 16 [1, 0, 0, 0])]),
        ([0x6B], BVal.doc [([0x78], BVal.other 16 [1, 0, 0, 0])])] : List Elem)
      ≠ [([0x6B], BVal.doc [([0x78], BVal.other 16 [1, 0, 0, 0])]),
        ([0x6B], BVal.doc [([0x79], BVal.other 16 [2, 0, 0, 0])])] := by
  constructor
  · have hk : validUtf8 [0x6B] = true := rfl
    have hget : getDocument [0x6B]
        [([0x6B], BVal.doc [([0x78], BVal.other 16 [1, 0, 0, 0])]),
          ([0x6B], BVal.doc [([0x79], BVal.other 16 [2, 0, 0, 0])])]
        = .ok [([0x78], BVal.other 16 [1, 0, 0, 0])] := rfl
    have hx : validUtf8 [0x78] = true := rfl
    have hsub : fixElems [([0x78], BVal.other 16 [1, 0, 0, 0])]
        [([0x78], BVal.other 16 [1, 0, 0, 0])] false decTrue
        = .ok [([0x78], BVal.other 16 [1, 0, 0, 0])] := by
      rw [fixElems_other hx, fixElems_nil]
    show fixElems _ _ _ _ = _
    rw [fixElems_doc hk hget, hsub, fixElems_doc hk hget, hsub, fixElems_nil]
  · simp

/-- C9 (amended): with a duplicated key, embedded-document elements are all
rebuilt from the *first* occurrence's payload, not from their own: in a
document `[(k, doc D1), (k, doc D2)]` both output elements carry the rewrite
of `D1`. -/
theorem c9_dup_first_wins (k : List Nat) (hk : validUtf8 k = true)
    (D1 D2 : List Elem) (c : Bool) (dec : Decider) (out : List Elem)
    (h : fixDocument [(k, .doc D1), (k, .doc D2)] c dec = .ok out) :
    ∃ D3, fixElems D1 D1 c dec = .ok D3 ∧ out = [(k, .doc D3), (k, .doc D3)] := by
  have hscan : scanGet k [(k, .doc D1), (k, .doc D2)] = .ok (some (.doc D1)) := by
    rw [scanGet_cons_doc hk, if_pos rfl]
  have hget : getDocument k [(k, .doc D1), (k, .doc D2)] = .ok D1 := by
    unfold getDocument
    rw [hscan]
  unfold fixDocument at h
  rw [fixElems_doc hk hget] at h
  match hD : fixElems D1 D1 c dec with
  | .error e =>
    rw [hD] at h
    cases h
  | .ok D3 =>
    rw [hD] at h
    rw [fixElems_doc hk hget, hD, fixElems_nil] at h
    injection h with h2
    exact ⟨D3, rfl, h2.symm⟩

/-- C9 (witness): the amended claim at a concrete duplicate-key document. -/
theorem c9_witness :
    ∃ D3, fixElems [] [] false decTrue = .ok D3 ∧
      [([0x6B], BVal.doc []), ([0x6B], BVal.doc [])]
        = [([0x6B], BVal.doc D3), ([0x6B], BVal.doc D3)] :=
  c9_dup_first_wins [0x6B] rfl [] [([0x62], .other 16 [1, 0, 0, 0])] false decTrue
    [([0x6B], BVal.doc []), ([0x6B], BVal.doc [])]
    (by
      have hk6 : validUtf8 [0x6B] = true := rfl
      have hget : getDocument [0x6B]
          [([0x6B], BVal.doc []), ([0x6B], BVal.doc [([0x62], BVal.other 16 [1, 0, 0, 0])])]
          = .ok [] := rfl
      show fixElems _ _ _ _ = _
      rw [fixElems_doc hk6 hget, fixElems_nil, fixElems_doc hk6 hget, fixElems_nil,
        fixElems_nil])

/-- C10: for a well-formed document, the offsets `fix_string` computes stay
inside the encoded buffer, the bytes sliced at the computed key range are
exactly the iterator-reported key (so the `assert_eq!` comparing the key with
the lossily decoded slice holds), and the bytes sliced at the computed value
range are exactly the string's payload: none of the slice indexings and
neither the assertion can panic. -/
theorem c10_safety (es : List Elem) (i : Nat) (k p : List Nat)
    (hwf : wfTop es = true) (h : es[i]? = some (k, .str p))
    (hinv : validUtf8 p = false) :
    rawValueHi (startOf es i) k (rawElemLen (.str p)) ≤ (encodeDoc es).length ∧
    ((encodeDoc es).drop (keyStart (startOf es i))).take k.length = k ∧
    utf8Encode (utf8Lossy (((encodeDoc es).drop (keyStart (startOf es i))).take k.length))
      = k ∧
    ((encodeDoc es).drop (rawValueLo (startOf es i) k)).take
      (rawValueHi (startOf es i) k (rawElemLen (.str p)) - rawValueLo (startOf es i) k)
      = p := by
  have hd := encodeDoc_drop h
  have hkey : ((encodeDoc es).drop (keyStart (startOf es i))).take k.length = k := by
    have e1 : keyStart (startOf es i) = (4 + startOf es i) + 1 := by
      unfold keyStart
      omega
    rw [e1, ← List.drop_drop, hd, key_slice]
  have hsplitlen : (encodeElems es).length
      = startOf es i + (k.length + p.length + 7)
          + (encodeElems (es.drop (i + 1))).length := by
    have hc := congrArg List.length (encodeElems_split h)
    rw [List.length_append, List.length_append, length_encodeElem_str, ← startOf_eq] at hc
    omega
  have hlen : (encodeDoc es).length = 4 + (encodeElems es).length + 1 := by
    rw [encodeDoc, docFrame]
    simp only [List.length_append, le32_length, List.length_cons, List.length_nil]
  have hvk : validUtf8 k = true := by
    have hw := wfTop_mem hwf (List.getElem?_mem h)
    unfold wfElem at hw
    simp only [Bool.and_eq_true] at hw
    exact hw.1.1
  refine ⟨?_, hkey, ?_, ?_⟩
  · unfold rawValueHi valueStart keyStart
    rw [rawElemLen_str, hlen]
    omega
  · rw [hkey]
    exact utf8Encode_lossy_of_valid hvk
  · have e2 : rawValueLo (startOf es i) k
        = (4 + startOf es i) + (1 + k.length + 1 + 4) := by
      unfold rawValueLo valueStart keyStart
      omega
    have e3 : rawValueHi (startOf es i) k (rawElemLen (.str p))
        - rawValueLo (startOf es i) k = p.length := by
      unfold rawValueHi rawValueLo valueStart keyStart
      rw [rawElemLen_str]
      omega
    rw [e3, e2, ← List.drop_drop, hd, drop_encodeElem_str]
    exact List.take_left p _

/-- C10 (witness): the safety facts at a concrete one-element document with
an invalid payload. -/
theorem c10_witness :
    wfTop [([0x61], BVal.str [0xFF])] = true ∧
    ([([0x61], BVal.str [0xFF])][0]? = some ([0x61], .str [0xFF])) ∧
    validUtf8 [0xFF] = false ∧
    (rawValueHi (startOf [([0x61], BVal.str [0xFF])] 0) [0x61]
        (rawElemLen (.str [0xFF]))
        ≤ (encodeDoc [([0x61], BVal.str [0xFF])]).length ∧
      ((encodeDoc [([0x61], BVal.str [0xFF])]).drop
          (keyStart (startOf [([0x61], BVal.str [0xFF])] 0))).take [0x61].length
        = [0x61] ∧
      utf8Encode (utf8Lossy (((encodeDoc [([0x61], BVal.str [0xFF])]).drop
          (keyStart (startOf [([0x61], BVal.str [0xFF])] 0))).take [0x61].length))
        = [0x61] ∧
      ((encodeDoc [([0x61], BVal.str [0xFF])]).drop
          (rawValueLo (startOf [([0x61], BVal.str [0xFF])] 0) [0x61])).take
        (rawValueHi (startOf [([0x61], BVal.str [0xFF])] 0) [0x61]
            (rawElemLen (.str [0xFF]))
          - rawValueLo (startOf [([0x61], BVal.str [0xFF])] 0) [0x61])
        = [0xFF]) :=
  ⟨rfl, rfl, rfl,
    c10_safety [([0x61], BVal.str [0xFF])] 0 [0x61] [0xFF] rfl rfl rfl⟩

end MRepair
